import Mathlib

/-!
Verification of the `tslearn.metrics` module: elastic similarity measures
between (possibly multidimensional) time series.

A time series is modelled as a list of points, each point a list of rational
coordinates (a canonical dense 2-D array produced by the external
`SequenceAdapter` / `npy2d_time_series`).  A dataset is a list of such series.
Real-valued outputs (square roots, Gaussian kernels, medians of Euclidean
distances) live in `ℝ`; the dynamic-programming grids, whose entries are sums
of squared Euclidean costs, are exact rationals extended with `⊤` for the
infinite boundary sentinels.

The Python wrapper `tslearn/metrics.py` delegates the recursions to the
compiled extensions `tslearn.cydtw`, `tslearn.cylrdtw` and `tslearn.cygak`,
which are not part of the source tree; those engines are modelled here from
the specification (each such definition carries a doc comment saying so).
`sigma_gak`, entirely visible in `metrics.py`, is translated directly; the
indices produced by `numpy.random.choice` (global random state, no seed
argument) are threaded as an explicit argument.

The file is organised as definitions first, then theorems.
-/

/-- A point of a multidimensional time series: one feature vector. -/
abbrev Pt := List ℚ

/-- A time series: the canonical 2-D array (length × features). -/
abbrev TS := List Pt

/-- Squared Euclidean distance between two feature vectors. -/
def sqdist (p q : Pt) : ℚ := (List.zipWith (fun a b => (a - b) ^ 2) p q).sum

namespace cydtw

/-- Local cost of matching point `i-1` of `s1` with point `j-1` of `s2`
(1-indexed grid coordinates), as in the DTW cross-distance matrix. -/
def lcost (s1 s2 : TS) (i j : ℕ) : ℚ := sqdist (s1.getD (i - 1) []) (s2.getD (j - 1) [])

/-- Row 0 of the DTW cumulative-cost grid: only the origin is finite. -/
def row0 : ℕ → WithTop ℚ := fun j => if j = 0 then 0 else ⊤

/-- One row of the DTW grid from the previous row: cell `j+1` adds the local
cost to the minimum of the up, left and diagonal predecessors. -/
def rowStep (c : ℕ → ℚ) (prev : ℕ → WithTop ℚ) : ℕ → WithTop ℚ
  | 0 => ⊤
  | j + 1 => (c (j + 1) : WithTop ℚ) +
      min (min (prev (j + 1)) (rowStep c prev j)) (prev j)

/-- Modelled from the spec: the cumulative-cost grid of `cydtw.dtw` (the
compiled DTW engine, absent from the source tree).  `D s1 s2 i j` is the
minimum cumulative squared-Euclidean alignment cost of the first `i` points of
`s1` against the first `j` points of `s2`; row and column 0 are the infinite
boundary sentinels except for the zero origin. -/
def D (s1 s2 : TS) : ℕ → ℕ → WithTop ℚ
  | 0 => row0
  | i + 1 => rowStep (fun j => lcost s1 s2 (i + 1) j) (D s1 s2 i)

/-- The three predecessor directions of a grid cell. -/
inductive Dir | diag | up | lft
  deriving DecidableEq

/-- Predecessor choice of the backtrace at a grid cell: the predecessor that
produced the minimum of the diagonal, up and left costs, ties broken diagonal
first, then up, then left. -/
def pick (dg u lf : WithTop ℚ) : Dir :=
  if dg ≤ u ∧ dg ≤ lf then .diag else if u ≤ lf then .up else .lft

/-- Modelled from the spec: the backtrace loop of `cydtw.dtw_path` (compiled
engine, absent from the source tree).  From 1-indexed grid cell `(i, j)` it
emits the 0-indexed pair `(i-1, j-1)` and moves to the predecessor chosen by
`pick`; the result lists the alignment path from `(i-1, j-1)` down to
`(0, 0)`. -/
def bt (s1 s2 : TS) : ℕ → ℕ → List (ℕ × ℕ)
  | i + 1, j + 1 => (i, j) ::
      (match pick (D s1 s2 i j) (D s1 s2 i (j + 1)) (D s1 s2 (i + 1) j) with
       | .diag => bt s1 s2 i j
       | .up => bt s1 s2 i (j + 1)
       | .lft => bt s1 s2 (i + 1) j)
  | _, _ => []

/-- The 0-indexed predecessor cell chosen by the backtrace at 0-indexed cell
`c` (grid cell `(c.1 + 1, c.2 + 1)`). -/
def btstep (s1 s2 : TS) (c : ℕ × ℕ) : ℕ × ℕ :=
  match pick (D s1 s2 c.1 c.2) (D s1 s2 c.1 (c.2 + 1)) (D s1 s2 (c.1 + 1) c.2) with
  | .diag => (c.1 - 1, c.2 - 1)
  | .up => (c.1 - 1, c.2)
  | .lft => (c.1, c.2 - 1)

/-- Modelled from the spec: `cydtw.dtw` (compiled engine, absent from the
source tree) returns the square root of the bottom-right cell of the
cumulative-cost grid. -/
noncomputable def dtw (s1 s2 : TS) : ℝ :=
  Real.sqrt (((D s1 s2 s1.length s2.length).untop' 0 : ℚ) : ℝ)

/-- Modelled from the spec: `cydtw.dtw_path` (compiled engine, absent from
the source tree) returns the backtraced alignment path, reversed into forward
order, together with the similarity score. -/
noncomputable def dtw_path (s1 s2 : TS) : List (ℕ × ℕ) × ℝ :=
  ((bt s1 s2 s1.length s2.length).reverse, dtw s1 s2)

/-- A single admissible step of an alignment path: `i`, `j` or both advance
by exactly 1. -/
def stepOK (p q : ℕ × ℕ) : Prop :=
  (q.1 = p.1 + 1 ∧ q.2 = p.2) ∨ (q.1 = p.1 ∧ q.2 = p.2 + 1) ∨
    (q.1 = p.1 + 1 ∧ q.2 = p.2 + 1)

/-- Modelled from the spec: `cydtw.cdist_dtw` (compiled engine, absent from
the source tree).  Row-major cross-similarity matrix; in self-similarity mode
only the upper triangle is engine-computed, the lower triangle is mirrored
and the diagonal is set analytically to 0. -/
noncomputable def cdist_dtw (ds1 ds2 : List TS) (self_similarity : Bool) : List (List ℝ) :=
  (List.range ds1.length).map (fun i => (List.range ds2.length).map (fun j =>
    if self_similarity then
      if i = j then 0
      else if i < j then dtw (ds1.getD i []) (ds2.getD j [])
      else dtw (ds1.getD j []) (ds2.getD i [])
    else dtw (ds1.getD i []) (ds2.getD j [])))

end cydtw

namespace cygak

/-- Modelled from the spec: the triangular-modified Gaussian local kernel of
GAK, kappa(x, y) = k/(2-k) with k = exp(-dist2/(2 sigma^2)). -/
noncomputable def kloc (sigma : ℝ) (x y : Pt) : ℝ :=
  Real.exp (-(((sqdist x y : ℚ) : ℝ) / (2 * sigma ^ 2))) /
    (2 - Real.exp (-(((sqdist x y : ℚ) : ℝ) / (2 * sigma ^ 2))))

/-- Row 0 of the GAK grid: 1 at the origin, 0 elsewhere. -/
def krow0 : ℕ → ℝ := fun j => if j = 0 then 1 else 0

/-- One row of the GAK grid from the previous row. -/
noncomputable def krowStep (c : ℕ → ℝ) (prev : ℕ → ℝ) : ℕ → ℝ
  | 0 => 0
  | j + 1 => (prev (j + 1) + krowStep c prev j + prev j) * c (j + 1) / 3

/-- Modelled from the spec: the GAK grid of `cygak.normalized_gak` (compiled
engine, absent from the source tree).  `K sigma s1 s2 i j` accumulates the
kernel mass of all alignments of the first `i` points of `s1` with the first
`j` points of `s2`; the spec's log-domain evaluation is modelled by its exact
linear-domain value. -/
noncomputable def K (sigma : ℝ) (s1 s2 : TS) : ℕ → ℕ → ℝ
  | 0 => krow0
  | i + 1 => krowStep (fun j => kloc sigma (s1.getD i []) (s2.getD (j - 1) [])) (K sigma s1 s2 i)

/-- Modelled from the spec: `cygak.normalized_gak` (compiled engine, absent
from the source tree): K(s1,s2) / sqrt (K(s1,s1) * K(s2,s2)). -/
noncomputable def normalized_gak (s1 s2 : TS) (sigma : ℝ) : ℝ :=
  K sigma s1 s2 s1.length s2.length /
    Real.sqrt (K sigma s1 s1 s1.length s1.length * K sigma s2 s2 s2.length s2.length)

/-- Modelled from the spec: `cygak.cdist_gak` (compiled engine, absent from
the source tree); same batch layout as `cydtw.cdist_dtw` with an analytic
diagonal of 1 in self-similarity mode. -/
noncomputable def cdist_gak (ds1 ds2 : List TS) (sigma : ℝ) (self_similarity : Bool) :
    List (List ℝ) :=
  (List.range ds1.length).map (fun i => (List.range ds2.length).map (fun j =>
    if self_similarity then
      if i = j then 1
      else if i < j then normalized_gak (ds1.getD i []) (ds2.getD j []) sigma
      else normalized_gak (ds1.getD j []) (ds2.getD i []) sigma
    else normalized_gak (ds1.getD i []) (ds2.getD j []) sigma))

end cygak

namespace cylrdtw

/-- Cast of a grid value from the exact rational DTW grid into the real
LR-DTW grid. -/
def qcast : WithTop ℚ → WithTop ℝ := WithTop.map (fun q : ℚ => (q : ℝ))

/-- Boltzmann factor of one predecessor cost at temperature `gamma`: an
infinite boundary sentinel contributes nothing. -/
noncomputable def ew (gamma : ℝ) : WithTop ℝ → ℝ
  | ⊤ => 0
  | (v : ℝ) => Real.exp (-v / gamma)

/-- Modelled from the spec: the soft minimum of the three predecessor costs
at temperature `gamma` (log-domain weighted combination); at `gamma = 0` it
degenerates to the hard minimum. -/
noncomputable def softmin3 (gamma : ℝ) (dg u lf : WithTop ℝ) : WithTop ℝ :=
  if gamma = 0 then min (min dg u) lf
  else if dg = ⊤ ∧ u = ⊤ ∧ lf = ⊤ then ⊤
  else ((-gamma * Real.log (ew gamma dg + ew gamma u + ew gamma lf) : ℝ) : WithTop ℝ)

/-- Modelled from the spec: the normalized contribution weights of the
diagonal, up and left predecessors of a cell; one-hot at `gamma = 0` with the
diagonal-first tie-break. -/
noncomputable def weights3 (gamma : ℝ) (dg u lf : WithTop ℝ) : ℝ × ℝ × ℝ :=
  if gamma = 0 then
    if dg ≤ u ∧ dg ≤ lf then (1, 0, 0) else if u ≤ lf then (0, 1, 0) else (0, 0, 1)
  else
    ((ew gamma dg) / (ew gamma dg + ew gamma u + ew gamma lf),
     (ew gamma u) / (ew gamma dg + ew gamma u + ew gamma lf),
     (ew gamma lf) / (ew gamma dg + ew gamma u + ew gamma lf))

/-- Row 0 of the LR-DTW grid: same boundary as the DTW grid. -/
def rrow0 : ℕ → WithTop ℝ := fun j => if j = 0 then 0 else ⊤

/-- One row of the LR-DTW grid from the previous row, combining the three
predecessors through the soft minimum. -/
noncomputable def rrowStep (gamma : ℝ) (c : ℕ → ℝ) (prev : ℕ → WithTop ℝ) :
    ℕ → WithTop ℝ
  | 0 => ⊤
  | j + 1 => (c (j + 1) : WithTop ℝ) +
      softmin3 gamma (prev j) (prev (j + 1)) (rrowStep gamma c prev j)

/-- Modelled from the spec: the LR-DTW cumulative grid of `cylrdtw.lr_dtw`
(compiled engine, absent from the source tree): same shape, boundary and
squared-Euclidean local cost as the DTW grid, with the soft minimum in place
of the hard minimum. -/
noncomputable def S (gamma : ℝ) (s1 s2 : TS) : ℕ → ℕ → WithTop ℝ
  | 0 => rrow0
  | i + 1 => rrowStep gamma (fun j => ((cydtw.lcost s1 s2 (i + 1) j : ℚ) : ℝ))
      (S gamma s1 s2 i)

/-- The weight triple (diagonal, up, left) accumulated at 1-indexed cell
`(i, j)` of the grid. -/
noncomputable def wcell (gamma : ℝ) (s1 s2 : TS) (i j : ℕ) : ℝ × ℝ × ℝ :=
  weights3 gamma (S gamma s1 s2 (i - 1) (j - 1)) (S gamma s1 s2 (i - 1) j)
    (S gamma s1 s2 i (j - 1))

/-- Modelled from the spec: the alignment probability mass through 1-indexed
cell `(i, j)`, propagated from `(n, m)` backward — cell `(n, m)` carries mass
1, and every cell distributes its mass to its three predecessors according to
its weight triple.  These masses are the ProbabilisticPath entries. -/
noncomputable def mass (gamma : ℝ) (s1 s2 : TS) (n m i j : ℕ) : ℝ :=
  (if i = n ∧ j = m then 1 else 0)
  + (if h : i < n ∧ j ≤ m then
      mass gamma s1 s2 n m (i + 1) j * (wcell gamma s1 s2 (i + 1) j).2.1 else 0)
  + (if h : i ≤ n ∧ j < m then
      mass gamma s1 s2 n m i (j + 1) * (wcell gamma s1 s2 i (j + 1)).2.2 else 0)
  + (if h : i < n ∧ j < m then
      mass gamma s1 s2 n m (i + 1) (j + 1) * (wcell gamma s1 s2 (i + 1) (j + 1)).1 else 0)
  termination_by (n + m) - (i + j)
  decreasing_by
  · omega
  · omega
  · omega

/-- The probability map returned by the engine: a dense `rows × cols` array
of non-negative alignment masses. -/
structure ProbMap where
  rows : ℕ
  cols : ℕ
  val : ℕ → ℕ → ℝ

/-- Modelled from the spec: `cylrdtw.lr_dtw` (compiled engine, absent from
the source tree) returns the similarity score — the final transform matching
the DTW engine, i.e. the square root of the bottom-right cell — together with
the ProbabilisticPath matrix of backward-propagated masses. -/
noncomputable def lr_dtw (s1 s2 : TS) (gamma : ℝ) : ℝ × ProbMap :=
  (Real.sqrt ((S gamma s1 s2 s1.length s2.length).untop' 0),
   ⟨s1.length, s2.length,
    fun a b => mass gamma s1 s2 s1.length s2.length (a + 1) (b + 1)⟩)

/-- One greedy descent of the backtrace: from 0-indexed cell `(a, b)` move to
the valid neighbouring predecessor cell with the highest accumulated mass,
ties broken diagonal first, then up, then left; stop at `(0, 0)`. -/
noncomputable def descend (P : ℕ → ℕ → ℝ) : ℕ → ℕ → List (ℕ × ℕ)
  | 0, 0 => [(0, 0)]
  | a + 1, 0 => (a + 1, 0) :: descend P a 0
  | 0, b + 1 => (0, b + 1) :: descend P 0 b
  | a + 1, b + 1 => (a + 1, b + 1) ::
      (if P a b ≥ P a (b + 1) ∧ P a b ≥ P (a + 1) b then descend P a b
       else if P a (b + 1) ≥ P (a + 1) b then descend P a (b + 1)
       else descend P (a + 1) b)

/-- Modelled from the spec: `cylrdtw.lr_dtw_backtrace` (compiled engine,
absent from the source tree): greedy selection from `(n-1, m-1)` toward
`(0, 0)` on the probability map, reversed into forward order. -/
noncomputable def lr_dtw_backtrace (P : ProbMap) : List (ℕ × ℕ) :=
  (descend P.val (P.rows - 1) (P.cols - 1)).reverse

end cylrdtw


namespace metrics

/-- The external adapter `npy2d_time_series` converts raw input to the
canonical 2-D array; on canonical input it is the identity. -/
def npy2d_time_series (s : TS) : TS := s

/-- The external adapter `npy3d_time_series_dataset`, identity on canonical
3-D datasets. -/
def npy3d_time_series_dataset (ds : List TS) : List TS := ds

/-- `metrics.dtw`: adapt both series and delegate to the DTW engine. -/
noncomputable def dtw (s1 s2 : TS) : ℝ :=
  cydtw.dtw (npy2d_time_series s1) (npy2d_time_series s2)

/-- `metrics.dtw_path`: adapt both series and delegate to the DTW path
engine. -/
noncomputable def dtw_path (s1 s2 : TS) : List (ℕ × ℕ) × ℝ :=
  cydtw.dtw_path (npy2d_time_series s1) (npy2d_time_series s2)

/-- Euclidean distance between two feature vectors. -/
noncomputable def euclid (p q : Pt) : ℝ := Real.sqrt ((sqdist p q : ℚ) : ℝ)

/-- The pair enumeration of scipy `pdist`: each point paired with every later
point, in row-major order of the condensed distance matrix. -/
def pdistPairs : List Pt → List (Pt × Pt)
  | [] => []
  | x :: xs => (xs.map (fun y => (x, y))) ++ pdistPairs xs

/-- scipy `pdist(..., metric="euclidean")`: the condensed list of pairwise
Euclidean distances. -/
noncomputable def pdist (l : List Pt) : List ℝ :=
  (pdistPairs l).map (fun pq => euclid pq.1 pq.2)

/-- `numpy.median`: middle element of the sorted data for odd length, average
of the two middle elements for even length; on an empty array numpy emits NaN,
modelled as `none`. -/
noncomputable def numpy_median (l : List ℝ) : Option ℝ :=
  if l = [] then none
  else
    let s := l.mergeSort (fun a b => decide (a ≤ b))
    some (if l.length % 2 = 1 then s.getD (l.length / 2) 0
          else (s.getD (l.length / 2 - 1) 0 + s.getD (l.length / 2) 0) / 2)

/-- `dataset.reshape((-1, d))`: all points of all series, flattened in order. -/
def flattenPoints (ds : List TS) : List Pt := ds.flatten

/-- Outcome of a `sigma_gak` call.  `value` is a returned float; `nanResult`
models the NaN produced by `numpy.median` of an empty distance array;
`valueErr` models the ValueError raised by `numpy.random.choice` for a
negative size; `paramErr` stands for a ParameterError raised by up-front
validation (the code contains no such check, so no branch produces it). -/
inductive SigmaGakResult
  | value (r : ℝ)
  | nanResult
  | valueErr
  | paramErr

/-- The `replace` flag computed by `sigma_gak`: sample with replacement
exactly when the dataset has fewer points than `n_samples`. -/
def sigma_gak_replace (dataset : List TS) (n_samples : ℤ) : Bool :=
  decide (((npy3d_time_series_dataset dataset).length *
    ((npy3d_time_series_dataset dataset).getD 0 []).length : ℤ) < n_samples)

/-- `sigma_gak` (metrics.py lines 292-300): flatten the dataset to individual
time-points, take the points at the indices drawn by
`numpy.random.choice(n_ts * sz, size=n_samples, replace=replace)` — the draw
comes from numpy's global random state and is passed here explicitly as
`drawn`; the function has no seed parameter — then return the median of their
pairwise Euclidean distances scaled by `sqrt sz`. -/
noncomputable def sigma_gak (dataset : List TS) (n_samples : ℤ) (drawn : List ℕ) :
    SigmaGakResult :=
  if n_samples < 0 then .valueErr
  else
    let ds := npy3d_time_series_dataset dataset
    let sample := drawn.map (fun k => (flattenPoints ds).getD k [])
    match numpy_median (pdist sample) with
    | none => .nanResult
    | some med => .value (med * Real.sqrt (((ds.getD 0 []).length : ℕ) : ℝ))

/-- The possible outputs of `numpy.random.choice(t, size=n_samples, replace)`
with `replace = (t < n_samples)` as in `sigma_gak`: `n_samples` indices below
`t`, without duplicates when drawing without replacement. -/
abbrev validDraw (t : ℕ) (n_samples : ℤ) (drawn : List ℕ) : Prop :=
  drawn.length = n_samples.toNat ∧ (∀ k ∈ drawn, k < t) ∧
    (n_samples ≤ (t : ℤ) → drawn.Nodup)

/-- A canonical 3-D dataset: every series has length `sz` and every point has
dimension `d`. -/
abbrev wfDataset (ds : List TS) (sz d : ℕ) : Prop :=
  ∀ s ∈ ds, s.length = sz ∧ ∀ p ∈ s, p.length = d

/-- All pairwise Euclidean distances among a list of points, enumerated by
index pairs `i < j` — the specification's "all pairwise Euclidean distances
among the sample". -/
noncomputable def allPairDists (l : List Pt) : List ℝ :=
  ((List.range l.length).map (fun i =>
      ((List.range l.length).filter (fun j => i < j)).map
        (fun j => euclid (l.getD i []) (l.getD j [])))).flatten


/-- The `self_similarity` flag computed by `metrics.cdist_dtw` (lines
121-126): true exactly when `dataset2` is omitted (None). -/
def cdist_dtw_self_similarity (dataset2 : Option (List TS)) : Bool :=
  match dataset2 with
  | none => true
  | some _ => false

/-- `metrics.cdist_dtw` (lines 92-127): adapt the datasets, substitute
`dataset1` for an omitted `dataset2`, and delegate to the engine with the
computed `self_similarity` flag. -/
noncomputable def cdist_dtw (dataset1 : List TS) (dataset2 : Option (List TS)) :
    List (List ℝ) :=
  cydtw.cdist_dtw (npy3d_time_series_dataset dataset1)
    (match dataset2 with
     | none => npy3d_time_series_dataset dataset1
     | some d2 => npy3d_time_series_dataset d2)
    (cdist_dtw_self_similarity dataset2)

/-- `metrics.gak` (lines 196-232): adapt both series and delegate to the
normalized GAK engine. -/
noncomputable def gak (s1 s2 : TS) (sigma : ℝ) : ℝ :=
  cygak.normalized_gak (npy2d_time_series s1) (npy2d_time_series s2) sigma

/-- The `self_similarity` flag computed by `metrics.cdist_gak` (lines
263-268): true exactly when `dataset2` is omitted (None). -/
def cdist_gak_self_similarity (dataset2 : Option (List TS)) : Bool :=
  match dataset2 with
  | none => true
  | some _ => false

/-- `metrics.cdist_gak` (lines 235-269): adapt the datasets, substitute
`dataset1` for an omitted `dataset2`, and delegate to the engine with the
computed `self_similarity` flag. -/
noncomputable def cdist_gak (dataset1 : List TS) (dataset2 : Option (List TS))
    (sigma : ℝ) : List (List ℝ) :=
  cygak.cdist_gak (npy3d_time_series_dataset dataset1)
    (match dataset2 with
     | none => npy3d_time_series_dataset dataset1
     | some d2 => npy3d_time_series_dataset d2)
    sigma
    (cdist_gak_self_similarity dataset2)

/-- `metrics.lr_dtw` (lines 130-158): adapt both series and return the first
component of the engine result, discarding the probability matrix. -/
noncomputable def lr_dtw (s1 s2 : TS) (gamma : ℝ) : ℝ :=
  (cylrdtw.lr_dtw (npy2d_time_series s1) (npy2d_time_series s2) gamma).1

/-- `metrics.lr_dtw_path` (lines 161-193): adapt both series, run the engine
once, backtrace the probability matrix, and return the path with the score. -/
noncomputable def lr_dtw_path (s1 s2 : TS) (gamma : ℝ) : List (ℕ × ℕ) × ℝ :=
  (cylrdtw.lr_dtw_backtrace
      (cylrdtw.lr_dtw (npy2d_time_series s1) (npy2d_time_series s2) gamma).2,
   (cylrdtw.lr_dtw (npy2d_time_series s1) (npy2d_time_series s2) gamma).1)

/-- Entry `(i, j)` of a cross-similarity matrix given as a list of rows. -/
def entry (M : List (List ℝ)) (i j : ℕ) : ℝ := (M.getD i []).getD j 0

end metrics

namespace cydtw

@[simp] theorem D_zero_zero (s1 s2 : TS) : D s1 s2 0 0 = 0 := rfl

@[simp] theorem D_zero_succ (s1 s2 : TS) (j : ℕ) : D s1 s2 0 (j + 1) = ⊤ := rfl

@[simp] theorem D_succ_zero (s1 s2 : TS) (i : ℕ) : D s1 s2 (i + 1) 0 = ⊤ := rfl

theorem D_succ_succ (s1 s2 : TS) (i j : ℕ) :
    D s1 s2 (i + 1) (j + 1) = (lcost s1 s2 (i + 1) (j + 1) : WithTop ℚ) +
      min (min (D s1 s2 i (j + 1)) (D s1 s2 (i + 1) j)) (D s1 s2 i j) := rfl

/-- Cells of the grid with both indices at least 1 are finite. -/
theorem D_ne_top (s1 s2 : TS) : ∀ k i j, i + j ≤ k → 1 ≤ i → 1 ≤ j → D s1 s2 i j ≠ ⊤ := by
  intro k
  induction k with
  | zero => intro i j h h1 h2; omega
  | succ k ih =>
    intro i j hk h1 h2
    obtain ⟨i, rfl⟩ : ∃ i', i = i' + 1 := ⟨i - 1, by omega⟩
    obtain ⟨j, rfl⟩ : ∃ j', j = j' + 1 := ⟨j - 1, by omega⟩
    rw [D_succ_succ, WithTop.add_ne_top]
    refine ⟨WithTop.coe_ne_top, fun htop => ?_⟩
    rw [min_eq_top, min_eq_top] at htop
    obtain ⟨⟨hu, hl⟩, hd⟩ := htop
    rcases Nat.eq_zero_or_pos i with hi | hi
    · rcases Nat.eq_zero_or_pos j with hj | hj
      · subst hi; subst hj; exact absurd hd (by simp)
      · subst hi; exact ih 1 j (by omega) le_rfl hj hl
    · rcases Nat.eq_zero_or_pos j with hj | hj
      · subst hj; exact ih i 1 (by omega) hi le_rfl hu
      · exact ih i j (by omega) hi hj hd

theorem bt_unfold (s1 s2 : TS) (i j : ℕ) :
    bt s1 s2 (i + 1) (j + 1) = (i, j) ::
      (match pick (D s1 s2 i j) (D s1 s2 i (j + 1)) (D s1 s2 (i + 1) j) with
       | .diag => bt s1 s2 i j
       | .up => bt s1 s2 i (j + 1)
       | .lft => bt s1 s2 (i + 1) j) := by
  rw [bt]

theorem bt_eq_diag (s1 s2 : TS) (i j : ℕ)
    (hp : pick (D s1 s2 i j) (D s1 s2 i (j + 1)) (D s1 s2 (i + 1) j) = .diag) :
    bt s1 s2 (i + 1) (j + 1) = (i, j) :: bt s1 s2 i j := by
  rw [bt_unfold, hp]

theorem bt_eq_up (s1 s2 : TS) (i j : ℕ)
    (hp : pick (D s1 s2 i j) (D s1 s2 i (j + 1)) (D s1 s2 (i + 1) j) = .up) :
    bt s1 s2 (i + 1) (j + 1) = (i, j) :: bt s1 s2 i (j + 1) := by
  rw [bt_unfold, hp]

theorem bt_eq_lft (s1 s2 : TS) (i j : ℕ)
    (hp : pick (D s1 s2 i j) (D s1 s2 i (j + 1)) (D s1 s2 (i + 1) j) = .lft) :
    bt s1 s2 (i + 1) (j + 1) = (i, j) :: bt s1 s2 (i + 1) j := by
  rw [bt_unfold, hp]

theorem bt_zero_left (s1 s2 : TS) (j : ℕ) : bt s1 s2 0 j = [] := by
  simp [bt]

/-- The pick at the origin cell is the diagonal move to `(0, 0)`. -/
theorem pick_origin (s1 s2 : TS) :
    pick (D s1 s2 0 0) (D s1 s2 0 1) (D s1 s2 1 0) = .diag := by
  rw [pick, if_pos]
  constructor <;> simp

/-- On the first valid row (`i = 1`, `j ≥ 1`) the pick is forced left. -/
theorem pick_row1 (s1 s2 : TS) (j : ℕ) (hj : 1 ≤ j) :
    pick (D s1 s2 0 j) (D s1 s2 0 (j + 1)) (D s1 s2 1 j) = .lft := by
  have hfin : D s1 s2 1 j ≠ ⊤ := D_ne_top s1 s2 (1 + j) 1 j le_rfl le_rfl hj
  obtain ⟨j', rfl⟩ : ∃ j', j = j' + 1 := ⟨j - 1, by omega⟩
  rw [pick, D_zero_succ, D_zero_succ, if_neg, if_neg]
  · exact fun h => hfin (top_le_iff.mp h)
  · intro hand
    exact hfin (top_le_iff.mp hand.2)

/-- On the first valid column (`j = 1`, `i ≥ 1`) the pick is forced up. -/
theorem pick_col1 (s1 s2 : TS) (i : ℕ) (hi : 1 ≤ i) :
    pick (D s1 s2 i 0) (D s1 s2 i 1) (D s1 s2 (i + 1) 0) = .up := by
  have hfin : D s1 s2 i 1 ≠ ⊤ := D_ne_top s1 s2 (i + 1) i 1 le_rfl hi le_rfl
  obtain ⟨i', rfl⟩ : ∃ i', i = i' + 1 := ⟨i - 1, by omega⟩
  rw [pick, D_succ_zero, D_succ_zero, if_neg, if_pos le_top]
  intro hand
  exact hfin (top_le_iff.mp hand.1)

theorem getLast?_cons_ne {α : Type} (a : α) (l : List α) (h : l ≠ []) :
    (a :: l).getLast? = l.getLast? := by
  cases l with
  | nil => exact absurd rfl h
  | cons b m => rfl

/-- The backtraced list from a valid cell `(i, j)` runs from `(i-1, j-1)`
down to `(0, 0)` through admissible (reversed) steps. -/
theorem bt_spec (s1 s2 : TS) : ∀ k i j, i + j ≤ k → 1 ≤ i → 1 ≤ j →
    (bt s1 s2 i j).head? = some (i - 1, j - 1) ∧
    (bt s1 s2 i j).getLast? = some (0, 0) ∧
    List.Chain' (fun p q => stepOK q p) (bt s1 s2 i j) := by
  intro k
  induction k with
  | zero => intro i j h h1 h2; omega
  | succ k ih =>
    intro i j hk h1 h2
    obtain ⟨i, rfl⟩ : ∃ i', i = i' + 1 := ⟨i - 1, by omega⟩
    obtain ⟨j, rfl⟩ : ∃ j', j = j' + 1 := ⟨j - 1, by omega⟩
    have key : ∀ i' j', 1 ≤ i' → 1 ≤ j' → i' + j' ≤ k →
        stepOK (i' - 1, j' - 1) (i, j) →
        ((i, j) :: bt s1 s2 i' j').head? = some (i, j) ∧
        ((i, j) :: bt s1 s2 i' j').getLast? = some (0, 0) ∧
        List.Chain' (fun p q => stepOK q p) ((i, j) :: bt s1 s2 i' j') := by
      intro i' j' h1' h2' hk' hstep
      obtain ⟨h_head, h_last, h_chain⟩ := ih i' j' hk' h1' h2'
      have hne : bt s1 s2 i' j' ≠ [] := by
        intro hnil; rw [hnil] at h_head; exact Option.noConfusion h_head
      refine ⟨rfl, ?_, ?_⟩
      · rw [getLast?_cons_ne _ _ hne]; exact h_last
      · rw [List.chain'_cons']
        refine ⟨?_, h_chain⟩
        intro y hy
        rw [h_head] at hy
        cases hy
        exact hstep
    rcases Nat.eq_zero_or_pos i with hi | hi
    · rcases Nat.eq_zero_or_pos j with hj | hj
      · subst hi; subst hj
        rw [bt_eq_diag s1 s2 0 0 (pick_origin s1 s2), bt_zero_left]
        exact ⟨rfl, rfl, List.chain'_singleton _⟩
      · subst hi
        rw [bt_eq_lft s1 s2 0 j (pick_row1 s1 s2 j hj)]
        have h := key 1 j le_rfl hj (by omega)
          (by right; left; refine ⟨rfl, ?_⟩; simp; omega)
        simpa using h
    · rcases Nat.eq_zero_or_pos j with hj | hj
      · subst hj
        rw [bt_eq_up s1 s2 i 0 (pick_col1 s1 s2 i hi)]
        have h := key i 1 hi le_rfl (by omega)
          (by left; refine ⟨?_, rfl⟩; simp; omega)
        simpa using h
      · rcases hpick : pick (D s1 s2 i j) (D s1 s2 i (j + 1)) (D s1 s2 (i + 1) j)
          with _ | _ | _
        · rw [bt_eq_diag s1 s2 i j hpick]
          exact key i j hi hj (by omega)
            (by right; right; constructor <;> simp <;> omega)
        · rw [bt_eq_up s1 s2 i j hpick]
          exact key i (j + 1) hi (by omega) (by omega)
            (by left; constructor <;> simp <;> omega)
        · rw [bt_eq_lft s1 s2 i j hpick]
          exact key (i + 1) j (by omega) hj (by omega)
            (by right; left; constructor <;> simp <;> omega)

end cydtw

/-- Minimum with the infinite sentinel on the left. -/
theorem wmin_top_l (a : WithTop ℚ) : min ⊤ a = a := min_eq_right le_top

/-- Minimum with the infinite sentinel on the right. -/
theorem wmin_top_r (a : WithTop ℚ) : min a ⊤ = a := min_eq_left le_top

/-- Value of the DTW grid at the bottom-right corner for the first docstring
example: an exact elastic match, total cost 0. -/
theorem D_example1 :
    cydtw.D [[1], [2], [3]] [[1], [2], [2], [3]] 3 4 = ((0 : ℚ) : WithTop ℚ) := by
  have e00 : cydtw.D [[1], [2], [3]] [[1], [2], [2], [3]] 0 0 = ((0 : ℚ) : WithTop ℚ) := rfl
  have e01 : cydtw.D [[1], [2], [3]] [[1], [2], [2], [3]] 0 1 = ⊤ := rfl
  have e02 : cydtw.D [[1], [2], [3]] [[1], [2], [2], [3]] 0 2 = ⊤ := rfl
  have e03 : cydtw.D [[1], [2], [3]] [[1], [2], [2], [3]] 0 3 = ⊤ := rfl
  have e04 : cydtw.D [[1], [2], [3]] [[1], [2], [2], [3]] 0 4 = ⊤ := rfl
  have e10 : cydtw.D [[1], [2], [3]] [[1], [2], [2], [3]] 1 0 = ⊤ := rfl
  have e20 : cydtw.D [[1], [2], [3]] [[1], [2], [2], [3]] 2 0 = ⊤ := rfl
  have e30 : cydtw.D [[1], [2], [3]] [[1], [2], [2], [3]] 3 0 = ⊤ := rfl
  have e11 : cydtw.D [[1], [2], [3]] [[1], [2], [2], [3]] 1 1 = ((0 : ℚ) : WithTop ℚ) := by
    rw [show cydtw.D [[1], [2], [3]] [[1], [2], [2], [3]] 1 1
        = cydtw.D [[1], [2], [3]] [[1], [2], [2], [3]] (0 + 1) (0 + 1) from rfl,
      cydtw.D_succ_succ]
    norm_num [e01, e10, e00, cydtw.lcost, sqdist, wmin_top_l, wmin_top_r]
  have e12 : cydtw.D [[1], [2], [3]] [[1], [2], [2], [3]] 1 2 = ((1 : ℚ) : WithTop ℚ) := by
    rw [show cydtw.D [[1], [2], [3]] [[1], [2], [2], [3]] 1 2
        = cydtw.D [[1], [2], [3]] [[1], [2], [2], [3]] (0 + 1) (1 + 1) from rfl,
      cydtw.D_succ_succ]
    norm_num [e02, e11, e01, cydtw.lcost, sqdist, wmin_top_l, wmin_top_r]
  have e13 : cydtw.D [[1], [2], [3]] [[1], [2], [2], [3]] 1 3 = ((2 : ℚ) : WithTop ℚ) := by
    rw [show cydtw.D [[1], [2], [3]] [[1], [2], [2], [3]] 1 3
        = cydtw.D [[1], [2], [3]] [[1], [2], [2], [3]] (0 + 1) (2 + 1) from rfl,
      cydtw.D_succ_succ]
    norm_num [e03, e12, e02, cydtw.lcost, sqdist, wmin_top_l, wmin_top_r]
  have e14 : cydtw.D [[1], [2], [3]] [[1], [2], [2], [3]] 1 4 = ((6 : ℚ) : WithTop ℚ) := by
    rw [show cydtw.D [[1], [2], [3]] [[1], [2], [2], [3]] 1 4
        = cydtw.D [[1], [2], [3]] [[1], [2], [2], [3]] (0 + 1) (3 + 1) from rfl,
      cydtw.D_succ_succ]
    norm_num [e04, e13, e03, cydtw.lcost, sqdist, wmin_top_l, wmin_top_r]
  have e21 : cydtw.D [[1], [2], [3]] [[1], [2], [2], [3]] 2 1 = ((1 : ℚ) : WithTop ℚ) := by
    rw [show cydtw.D [[1], [2], [3]] [[1], [2], [2], [3]] 2 1
        = cydtw.D [[1], [2], [3]] [[1], [2], [2], [3]] (1 + 1) (0 + 1) from rfl,
      cydtw.D_succ_succ]
    norm_num [e11, e20, e10, cydtw.lcost, sqdist, wmin_top_l, wmin_top_r]
  have e22 : cydtw.D [[1], [2], [3]] [[1], [2], [2], [3]] 2 2 = ((0 : ℚ) : WithTop ℚ) := by
    rw [show cydtw.D [[1], [2], [3]] [[1], [2], [2], [3]] 2 2
        = cydtw.D [[1], [2], [3]] [[1], [2], [2], [3]] (1 + 1) (1 + 1) from rfl,
      cydtw.D_succ_succ]
    norm_num [e12, e21, e11, cydtw.lcost, sqdist, wmin_top_l, wmin_top_r]
  have e23 : cydtw.D [[1], [2], [3]] [[1], [2], [2], [3]] 2 3 = ((0 : ℚ) : WithTop ℚ) := by
    rw [show cydtw.D [[1], [2], [3]] [[1], [2], [2], [3]] 2 3
        = cydtw.D [[1], [2], [3]] [[1], [2], [2], [3]] (1 + 1) (2 + 1) from rfl,
      cydtw.D_succ_succ]
    norm_num [e13, e22, e12, cydtw.lcost, sqdist, wmin_top_l, wmin_top_r]
  have e24 : cydtw.D [[1], [2], [3]] [[1], [2], [2], [3]] 2 4 = ((1 : ℚ) : WithTop ℚ) := by
    rw [show cydtw.D [[1], [2], [3]] [[1], [2], [2], [3]] 2 4
        = cydtw.D [[1], [2], [3]] [[1], [2], [2], [3]] (1 + 1) (3 + 1) from rfl,
      cydtw.D_succ_succ]
    norm_num [e14, e23, e13, cydtw.lcost, sqdist, wmin_top_l, wmin_top_r]
  have e31 : cydtw.D [[1], [2], [3]] [[1], [2], [2], [3]] 3 1 = ((5 : ℚ) : WithTop ℚ) := by
    rw [show cydtw.D [[1], [2], [3]] [[1], [2], [2], [3]] 3 1
        = cydtw.D [[1], [2], [3]] [[1], [2], [2], [3]] (2 + 1) (0 + 1) from rfl,
      cydtw.D_succ_succ]
    norm_num [e21, e30, e20, cydtw.lcost, sqdist, wmin_top_l, wmin_top_r]
  have e32 : cydtw.D [[1], [2], [3]] [[1], [2], [2], [3]] 3 2 = ((1 : ℚ) : WithTop ℚ) := by
    rw [show cydtw.D [[1], [2], [3]] [[1], [2], [2], [3]] 3 2
        = cydtw.D [[1], [2], [3]] [[1], [2], [2], [3]] (2 + 1) (1 + 1) from rfl,
      cydtw.D_succ_succ]
    norm_num [e22, e31, e21, cydtw.lcost, sqdist, wmin_top_l, wmin_top_r]
  have e33 : cydtw.D [[1], [2], [3]] [[1], [2], [2], [3]] 3 3 = ((1 : ℚ) : WithTop ℚ) := by
    rw [show cydtw.D [[1], [2], [3]] [[1], [2], [2], [3]] 3 3
        = cydtw.D [[1], [2], [3]] [[1], [2], [2], [3]] (2 + 1) (2 + 1) from rfl,
      cydtw.D_succ_succ]
    norm_num [e23, e32, e22, cydtw.lcost, sqdist, wmin_top_l, wmin_top_r]
  rw [show cydtw.D [[1], [2], [3]] [[1], [2], [2], [3]] 3 4
      = cydtw.D [[1], [2], [3]] [[1], [2], [2], [3]] (2 + 1) (3 + 1) from rfl,
    cydtw.D_succ_succ]
  norm_num [e24, e33, e23, cydtw.lcost, sqdist, wmin_top_l, wmin_top_r]

/-- Value of the DTW grid at the bottom-right corner for the second docstring
example: one unavoidable unit of squared cost. -/
theorem D_example2 :
    cydtw.D [[1], [2], [3]] [[1], [2], [2], [3], [4]] 3 5 = ((1 : ℚ) : WithTop ℚ) := by
  have e00 : cydtw.D [[1], [2], [3]] [[1], [2], [2], [3], [4]] 0 0 = ((0 : ℚ) : WithTop ℚ) := rfl
  have e01 : cydtw.D [[1], [2], [3]] [[1], [2], [2], [3], [4]] 0 1 = ⊤ := rfl
  have e02 : cydtw.D [[1], [2], [3]] [[1], [2], [2], [3], [4]] 0 2 = ⊤ := rfl
  have e03 : cydtw.D [[1], [2], [3]] [[1], [2], [2], [3], [4]] 0 3 = ⊤ := rfl
  have e04 : cydtw.D [[1], [2], [3]] [[1], [2], [2], [3], [4]] 0 4 = ⊤ := rfl
  have e05 : cydtw.D [[1], [2], [3]] [[1], [2], [2], [3], [4]] 0 5 = ⊤ := rfl
  have e10 : cydtw.D [[1], [2], [3]] [[1], [2], [2], [3], [4]] 1 0 = ⊤ := rfl
  have e20 : cydtw.D [[1], [2], [3]] [[1], [2], [2], [3], [4]] 2 0 = ⊤ := rfl
  have e30 : cydtw.D [[1], [2], [3]] [[1], [2], [2], [3], [4]] 3 0 = ⊤ := rfl
  have e11 : cydtw.D [[1], [2], [3]] [[1], [2], [2], [3], [4]] 1 1 = ((0 : ℚ) : WithTop ℚ) := by
    rw [show cydtw.D [[1], [2], [3]] [[1], [2], [2], [3], [4]] 1 1
        = cydtw.D [[1], [2], [3]] [[1], [2], [2], [3], [4]] (0 + 1) (0 + 1) from rfl,
      cydtw.D_succ_succ]
    norm_num [e01, e10, e00, cydtw.lcost, sqdist, wmin_top_l, wmin_top_r]
  have e12 : cydtw.D [[1], [2], [3]] [[1], [2], [2], [3], [4]] 1 2 = ((1 : ℚ) : WithTop ℚ) := by
    rw [show cydtw.D [[1], [2], [3]] [[1], [2], [2], [3], [4]] 1 2
        = cydtw.D [[1], [2], [3]] [[1], [2], [2], [3], [4]] (0 + 1) (1 + 1) from rfl,
      cydtw.D_succ_succ]
    norm_num [e02, e11, e01, cydtw.lcost, sqdist, wmin_top_l, wmin_top_r]
  have e13 : cydtw.D [[1], [2], [3]] [[1], [2], [2], [3], [4]] 1 3 = ((2 : ℚ) : WithTop ℚ) := by
    rw [show cydtw.D [[1], [2], [3]] [[1], [2], [2], [3], [4]] 1 3
        = cydtw.D [[1], [2], [3]] [[1], [2], [2], [3], [4]] (0 + 1) (2 + 1) from rfl,
      cydtw.D_succ_succ]
    norm_num [e03, e12, e02, cydtw.lcost, sqdist, wmin_top_l, wmin_top_r]
  have e14 : cydtw.D [[1], [2], [3]] [[1], [2], [2], [3], [4]] 1 4 = ((6 : ℚ) : WithTop ℚ) := by
    rw [show cydtw.D [[1], [2], [3]] [[1], [2], [2], [3], [4]] 1 4
        = cydtw.D [[1], [2], [3]] [[1], [2], [2], [3], [4]] (0 + 1) (3 + 1) from rfl,
      cydtw.D_succ_succ]
    norm_num [e04, e13, e03, cydtw.lcost, sqdist, wmin_top_l, wmin_top_r]
  have e15 : cydtw.D [[1], [2], [3]] [[1], [2], [2], [3], [4]] 1 5 = ((15 : ℚ) : WithTop ℚ) := by
    rw [show cydtw.D [[1], [2], [3]] [[1], [2], [2], [3], [4]] 1 5
        = cydtw.D [[1], [2], [3]] [[1], [2], [2], [3], [4]] (0 + 1) (4 + 1) from rfl,
      cydtw.D_succ_succ]
    norm_num [e05, e14, e04, cydtw.lcost, sqdist, wmin_top_l, wmin_top_r]
  have e21 : cydtw.D [[1], [2], [3]] [[1], [2], [2], [3], [4]] 2 1 = ((1 : ℚ) : WithTop ℚ) := by
    rw [show cydtw.D [[1], [2], [3]] [[1], [2], [2], [3], [4]] 2 1
        = cydtw.D [[1], [2], [3]] [[1], [2], [2], [3], [4]] (1 + 1) (0 + 1) from rfl,
      cydtw.D_succ_succ]
    norm_num [e11, e20, e10, cydtw.lcost, sqdist, wmin_top_l, wmin_top_r]
  have e22 : cydtw.D [[1], [2], [3]] [[1], [2], [2], [3], [4]] 2 2 = ((0 : ℚ) : WithTop ℚ) := by
    rw [show cydtw.D [[1], [2], [3]] [[1], [2], [2], [3], [4]] 2 2
        = cydtw.D [[1], [2], [3]] [[1], [2], [2], [3], [4]] (1 + 1) (1 + 1) from rfl,
      cydtw.D_succ_succ]
    norm_num [e12, e21, e11, cydtw.lcost, sqdist, wmin_top_l, wmin_top_r]
  have e23 : cydtw.D [[1], [2], [3]] [[1], [2], [2], [3], [4]] 2 3 = ((0 : ℚ) : WithTop ℚ) := by
    rw [show cydtw.D [[1], [2], [3]] [[1], [2], [2], [3], [4]] 2 3
        = cydtw.D [[1], [2], [3]] [[1], [2], [2], [3], [4]] (1 + 1) (2 + 1) from rfl,
      cydtw.D_succ_succ]
    norm_num [e13, e22, e12, cydtw.lcost, sqdist, wmin_top_l, wmin_top_r]
  have e24 : cydtw.D [[1], [2], [3]] [[1], [2], [2], [3], [4]] 2 4 = ((1 : ℚ) : WithTop ℚ) := by
    rw [show cydtw.D [[1], [2], [3]] [[1], [2], [2], [3], [4]] 2 4
        = cydtw.D [[1], [2], [3]] [[1], [2], [2], [3], [4]] (1 + 1) (3 + 1) from rfl,
      cydtw.D_succ_succ]
    norm_num [e14, e23, e13, cydtw.lcost, sqdist, wmin_top_l, wmin_top_r]
  have e25 : cydtw.D [[1], [2], [3]] [[1], [2], [2], [3], [4]] 2 5 = ((5 : ℚ) : WithTop ℚ) := by
    rw [show cydtw.D [[1], [2], [3]] [[1], [2], [2], [3], [4]] 2 5
        = cydtw.D [[1], [2], [3]] [[1], [2], [2], [3], [4]] (1 + 1) (4 + 1) from rfl,
      cydtw.D_succ_succ]
    norm_num [e15, e24, e14, cydtw.lcost, sqdist, wmin_top_l, wmin_top_r]
  have e33 : cydtw.D [[1], [2], [3]] [[1], [2], [2], [3], [4]] 3 3 = ((1 : ℚ) : WithTop ℚ) := by
    have e31 : cydtw.D [[1], [2], [3]] [[1], [2], [2], [3], [4]] 3 1 = ((5 : ℚ) : WithTop ℚ) := by
      rw [show cydtw.D [[1], [2], [3]] [[1], [2], [2], [3], [4]] 3 1
          = cydtw.D [[1], [2], [3]] [[1], [2], [2], [3], [4]] (2 + 1) (0 + 1) from rfl,
        cydtw.D_succ_succ]
      norm_num [e21, e30, e20, cydtw.lcost, sqdist, wmin_top_l, wmin_top_r]
    have e32 : cydtw.D [[1], [2], [3]] [[1], [2], [2], [3], [4]] 3 2 = ((1 : ℚ) : WithTop ℚ) := by
      rw [show cydtw.D [[1], [2], [3]] [[1], [2], [2], [3], [4]] 3 2
          = cydtw.D [[1], [2], [3]] [[1], [2], [2], [3], [4]] (2 + 1) (1 + 1) from rfl,
        cydtw.D_succ_succ]
      norm_num [e22, e31, e21, cydtw.lcost, sqdist, wmin_top_l, wmin_top_r]
    rw [show cydtw.D [[1], [2], [3]] [[1], [2], [2], [3], [4]] 3 3
        = cydtw.D [[1], [2], [3]] [[1], [2], [2], [3], [4]] (2 + 1) (2 + 1) from rfl,
      cydtw.D_succ_succ]
    norm_num [e23, e32, e22, cydtw.lcost, sqdist, wmin_top_l, wmin_top_r]
  have e34 : cydtw.D [[1], [2], [3]] [[1], [2], [2], [3], [4]] 3 4 = ((0 : ℚ) : WithTop ℚ) := by
    rw [show cydtw.D [[1], [2], [3]] [[1], [2], [2], [3], [4]] 3 4
        = cydtw.D [[1], [2], [3]] [[1], [2], [2], [3], [4]] (2 + 1) (3 + 1) from rfl,
      cydtw.D_succ_succ]
    norm_num [e24, e33, e23, cydtw.lcost, sqdist, wmin_top_l, wmin_top_r]
  rw [show cydtw.D [[1], [2], [3]] [[1], [2], [2], [3], [4]] 3 5
      = cydtw.D [[1], [2], [3]] [[1], [2], [2], [3], [4]] (2 + 1) (4 + 1) from rfl,
    cydtw.D_succ_succ]
  norm_num [e25, e34, e24, cydtw.lcost, sqdist, wmin_top_l, wmin_top_r]

/-- C4: `dtw` returns `sqrt (D n m)` for the DP grid `D` with zero origin,
infinite first row and column, and `D (i+1) (j+1)` equal to the squared
Euclidean local cost plus the minimum of the three predecessors; in
particular `dtw [1,2,3] [1,2,2,3] = 0` and `dtw [1,2,3] [1,2,2,3,4] = 1`. -/
theorem dtw_grid_and_examples :
    (∀ s1 s2 : TS, metrics.dtw s1 s2 =
        Real.sqrt (((cydtw.D s1 s2 s1.length s2.length).untop' 0 : ℚ) : ℝ)) ∧
    (∀ s1 s2 : TS, cydtw.D s1 s2 0 0 = 0) ∧
    (∀ (s1 s2 : TS) (i : ℕ), cydtw.D s1 s2 (i + 1) 0 = ⊤) ∧
    (∀ (s1 s2 : TS) (j : ℕ), cydtw.D s1 s2 0 (j + 1) = ⊤) ∧
    (∀ (s1 s2 : TS) (i j : ℕ), cydtw.D s1 s2 (i + 1) (j + 1) =
        (sqdist (s1.getD i []) (s2.getD j []) : WithTop ℚ) +
          min (min (cydtw.D s1 s2 i (j + 1)) (cydtw.D s1 s2 (i + 1) j))
            (cydtw.D s1 s2 i j)) ∧
    metrics.dtw [[1], [2], [3]] [[1], [2], [2], [3]] = 0 ∧
    metrics.dtw [[1], [2], [3]] [[1], [2], [2], [3], [4]] = 1 := by
  refine ⟨fun s1 s2 => rfl, fun s1 s2 => rfl, fun s1 s2 i => rfl,
    fun s1 s2 j => rfl, fun s1 s2 i j => rfl, ?_, ?_⟩
  · show Real.sqrt (((cydtw.D [[1], [2], [3]] [[1], [2], [2], [3]] 3 4).untop' 0 : ℚ) : ℝ) = 0
    rw [D_example1]
    simp
  · show Real.sqrt
        (((cydtw.D [[1], [2], [3]] [[1], [2], [2], [3], [4]] 3 5).untop' 0 : ℚ) : ℝ) = 1
    rw [D_example2]
    simp

/-- C7: for non-empty series the alignment path returned by `dtw_path` starts
at `(0, 0)`, ends at `(n-1, m-1)`, and every consecutive step advances `i`,
`j`, or both by exactly 1. -/
theorem dtw_path_endpoints_and_steps (s1 s2 : TS) (h1 : s1 ≠ []) (h2 : s2 ≠ []) :
    ((metrics.dtw_path s1 s2).1).head? = some (0, 0) ∧
    ((metrics.dtw_path s1 s2).1).getLast? = some (s1.length - 1, s2.length - 1) ∧
    List.Chain' cydtw.stepOK (metrics.dtw_path s1 s2).1 := by
  have hn : 1 ≤ s1.length := List.length_pos.mpr h1
  have hm : 1 ≤ s2.length := List.length_pos.mpr h2
  obtain ⟨h_head, h_last, h_chain⟩ :=
    cydtw.bt_spec s1 s2 (s1.length + s2.length) s1.length s2.length le_rfl hn hm
  refine ⟨?_, ?_, ?_⟩
  · show ((cydtw.bt s1 s2 s1.length s2.length).reverse).head? = some (0, 0)
    rw [List.head?_reverse]
    exact h_last
  · show ((cydtw.bt s1 s2 s1.length s2.length).reverse).getLast? = _
    rw [List.getLast?_reverse]
    exact h_head
  · show List.Chain' cydtw.stepOK (cydtw.bt s1 s2 s1.length s2.length).reverse
    rw [List.chain'_reverse]
    exact h_chain

/-- Witness for C7 at a concrete pair of series. -/
theorem dtw_path_endpoints_and_steps_witness :
    (([[1], [2]] : TS) ≠ [] ∧ ([[1], [3], [3]] : TS) ≠ []) ∧
    (((metrics.dtw_path [[1], [2]] [[1], [3], [3]]).1).head? = some (0, 0) ∧
     ((metrics.dtw_path [[1], [2]] [[1], [3], [3]]).1).getLast? = some (1, 2) ∧
     List.Chain' cydtw.stepOK (metrics.dtw_path [[1], [2]] [[1], [3], [3]]).1) :=
  ⟨⟨by simp, by simp⟩,
    dtw_path_endpoints_and_steps [[1], [2]] [[1], [3], [3]] (by simp) (by simp)⟩

namespace metrics

theorem range_map_getD {α : Type} (d : α) :
    ∀ l : List α, (List.range l.length).map (fun j => l.getD j d) = l
  | [] => rfl
  | x :: xs => by
      rw [List.length_cons, List.range_succ_eq_map, List.map_cons, List.map_map]
      have h : ((fun j => (x :: xs).getD j d) ∘ Nat.succ) = (fun j => xs.getD j d) := by
        funext j
        simp
      rw [List.getD_cons_zero, h, range_map_getD d xs]

/-- The condensed scipy enumeration of pairwise distances coincides with the
index-pair enumeration `i < j` of the specification. -/
theorem pdist_eq_allPairDists : ∀ l : List Pt, pdist l = allPairDists l := by
  intro l
  induction l with
  | nil => rfl
  | cons x xs ih =>
    rw [pdist, pdistPairs, List.map_append, allPairDists, List.length_cons,
      List.range_succ_eq_map, List.map_cons, List.flatten_cons]
    congr 1
    · rw [List.filter_cons]
      have h0 : ¬ (0 < 0) := by omega
      simp only [decide_eq_true_eq, if_neg h0]
      rw [List.filter_map]
      have hfil : List.filter ((fun j => decide (0 < j)) ∘ Nat.succ) (List.range xs.length)
          = List.range xs.length := by
        apply List.filter_eq_self.mpr
        intro a _
        simp
      rw [hfil, List.map_map, List.map_map]
      have h1 : ((fun j => euclid ((x :: xs).getD 0 []) ((x :: xs).getD j [])) ∘ Nat.succ)
          = fun j => euclid x (xs.getD j []) := by
        funext j
        simp
      rw [h1]
      have h2 : ((fun (pq : Pt × Pt) => euclid pq.1 pq.2) ∘ fun y => (x, y))
          = fun y => euclid x y := rfl
      rw [h2]
      have h3 : (List.range xs.length).map (fun j => euclid x (xs.getD j []))
          = ((List.range xs.length).map (fun j => xs.getD j [])).map (fun y => euclid x y) := by
        rw [List.map_map]
        rfl
      rw [h3, range_map_getD]
    · rw [← pdist, ih, allPairDists, List.map_map]
      congr 1
      apply List.map_congr_left
      intro i _
      simp only [Function.comp]
      rw [List.filter_cons]
      have h0 : ¬ (i + 1 < 0) := by omega
      simp only [decide_eq_true_eq, Nat.succ_eq_add_one, if_neg h0]
      rw [List.filter_map]
      have hfil : List.filter ((fun j => decide (i + 1 < j)) ∘ Nat.succ) (List.range xs.length)
          = List.filter (fun j => decide (i < j)) (List.range xs.length) := by
        apply List.filter_congr
        intro a _
        simp only [Function.comp_apply]
        congr 1
        simp [Nat.succ_lt_succ_iff]
      rw [hfil, List.map_map]
      apply List.map_congr_left
      intro j _
      simp only [Function.comp_apply]
      simp

end metrics

/-- C1 counterexample: two calls of `sigma_gak` with the same dataset and the
same `n_samples` return different bandwidths when numpy's global random state
yields different sample indices; no seed parameter exists that could fix the
draw. -/
theorem sigma_gak_differs_across_draws :
    metrics.sigma_gak [[[0], [1], [9]]] 2 [0, 1] ≠ metrics.sigma_gak [[[0], [1], [9]]] 2 [0, 2] := by
  have h1 : metrics.sigma_gak [[[0], [1], [9]]] 2 [0, 1]
      = .value (Real.sqrt 1 * Real.sqrt 3) := by
    rw [metrics.sigma_gak, if_neg (by norm_num)]
    simp only [metrics.npy3d_time_series_dataset, metrics.flattenPoints]
    have hsample : ([0, 1] : List ℕ).map
        (fun k => ([[[0], [1], [9]]] : List TS).flatten.getD k []) = [[0], [1]] := rfl
    rw [hsample]
    have hp : metrics.pdist [[0], [1]] = [metrics.euclid [0] [1]] := rfl
    rw [hp, metrics.numpy_median, if_neg (by simp)]
    simp [metrics.euclid]
    norm_num [sqdist]
  have h2 : metrics.sigma_gak [[[0], [1], [9]]] 2 [0, 2]
      = .value (Real.sqrt 81 * Real.sqrt 3) := by
    rw [metrics.sigma_gak, if_neg (by norm_num)]
    simp only [metrics.npy3d_time_series_dataset, metrics.flattenPoints]
    have hsample : ([0, 2] : List ℕ).map
        (fun k => ([[[0], [1], [9]]] : List TS).flatten.getD k []) = [[0], [9]] := rfl
    rw [hsample]
    have hp : metrics.pdist [[0], [9]] = [metrics.euclid [0] [9]] := rfl
    rw [hp, metrics.numpy_median, if_neg (by simp)]
    simp [metrics.euclid]
    norm_num [sqdist]
  rw [h1, h2]
  intro h
  have h3 : Real.sqrt 1 * Real.sqrt 3 = Real.sqrt 81 * Real.sqrt 3 := by
    injection h
  have hs3 : Real.sqrt 3 ≠ 0 := by
    have := Real.sqrt_pos.mpr (show (0:ℝ) < 3 by norm_num)
    exact ne_of_gt this
  have h4 : Real.sqrt 1 = Real.sqrt 81 := mul_right_cancel₀ hs3 h3
  rw [Real.sqrt_one, show (81:ℝ) = 9 ^ 2 by norm_num, Real.sqrt_sq (by norm_num : (0:ℝ) ≤ 9)]
    at h4
  norm_num at h4

/-- C1 amended: `sigma_gak` is a deterministic function of the dataset,
`n_samples`, and the indices drawn from numpy's global random state — two
calls observing the same draw return the same bandwidth. -/
theorem sigma_gak_deterministic_given_draw (ds : List TS) (n : ℤ) (drawn drawn' : List ℕ)
    (h : drawn = drawn') : metrics.sigma_gak ds n drawn = metrics.sigma_gak ds n drawn' := by
  rw [h]

/-- Witness for the amended C1 statement at a concrete call. -/
theorem sigma_gak_deterministic_given_draw_witness :
    ([0, 1] : List ℕ) = [0, 1] ∧
    metrics.sigma_gak [[[0], [1]]] 5 [0, 1] = metrics.sigma_gak [[[0], [1]]] 5 [0, 1] :=
  ⟨rfl, sigma_gak_deterministic_given_draw [[[0], [1]]] 5 [0, 1] [0, 1] rfl⟩

/-- C2 counterexample: `sigma_gak` called with `n_samples = 0` is not
rejected; the sampling and distance pipeline runs and the call returns the
NaN median of an empty distance array instead of raising a ParameterError. -/
theorem sigma_gak_nsamples_zero_not_rejected :
    metrics.sigma_gak [[[0], [1]]] 0 [] = metrics.SigmaGakResult.nanResult ∧
    metrics.sigma_gak [[[0], [1]]] 0 [] ≠ metrics.SigmaGakResult.paramErr := by
  have h : metrics.sigma_gak [[[0], [1]]] 0 [] = metrics.SigmaGakResult.nanResult := by
    rw [metrics.sigma_gak, if_neg (by norm_num)]
    rfl
  refine ⟨h, ?_⟩
  rw [h]
  intro hc
  exact metrics.SigmaGakResult.noConfusion hc

/-- C2 amended: `sigma_gak` performs no validation of `n_samples`: with
`n_samples = 0` it samples zero points and returns NaN (the median of an
empty distance array), and with negative `n_samples` the error surfaces as a
ValueError inside `numpy.random.choice` during sampling; no ParameterError is
raised before computation. -/
theorem sigma_gak_unvalidated (ds : List TS) (n : ℤ) (drawn : List ℕ) (hn : n < 0) :
    metrics.sigma_gak ds 0 [] = metrics.SigmaGakResult.nanResult ∧
    metrics.sigma_gak ds n drawn = metrics.SigmaGakResult.valueErr := by
  constructor
  · rw [metrics.sigma_gak, if_neg (by norm_num)]
    rfl
  · rw [metrics.sigma_gak, if_pos hn]

/-- Witness for the amended C2 statement at a concrete call. -/
theorem sigma_gak_unvalidated_witness :
    (-1 : ℤ) < 0 ∧
    (metrics.sigma_gak [[[0]]] 0 [] = metrics.SigmaGakResult.nanResult ∧
     metrics.sigma_gak [[[0]]] (-1) [5] = metrics.SigmaGakResult.valueErr) :=
  ⟨by decide, sigma_gak_unvalidated [[[0]]] (-1) [5] (by decide)⟩

/-- C3: for a well-formed dataset and any valid draw of `n_samples > 0`
indices over the flattened time-points — drawn with replacement exactly when
the dataset has fewer points than `n_samples` (the `replace` flag) —
`sigma_gak` returns the median of all pairwise Euclidean distances among the
sampled points multiplied by `sqrt sz`. -/
theorem sigma_gak_samples_median_scaled (ds : List TS) (sz d : ℕ) (n_samples : ℤ)
    (drawn : List ℕ) (hwf : metrics.wfDataset ds sz d) (hpos : 0 < n_samples)
    (hdraw : metrics.validDraw (ds.length * sz) n_samples drawn) :
    (metrics.sigma_gak ds n_samples drawn =
      match metrics.numpy_median (metrics.allPairDists
          (drawn.map (fun k => (metrics.flattenPoints ds).getD k []))) with
       | none => metrics.SigmaGakResult.nanResult
       | some med => metrics.SigmaGakResult.value (med * Real.sqrt ((sz : ℕ) : ℝ))) ∧
    metrics.sigma_gak_replace ds n_samples = decide (((ds.length * sz : ℕ) : ℤ) < n_samples) := by
  obtain ⟨hlen, hbound, hnodup⟩ := hdraw
  have hne : drawn ≠ [] := by
    intro h
    rw [h] at hlen
    simp at hlen
    omega
  obtain ⟨k0, hk0⟩ : ∃ k, k ∈ drawn := by
    cases drawn with
    | nil => exact absurd rfl hne
    | cons a l => exact ⟨a, by simp⟩
  have ht : 0 < ds.length * sz := lt_of_le_of_lt (Nat.zero_le _) (hbound k0 hk0)
  have hsz : (ds.getD 0 []).length = sz := by
    cases ds with
    | nil => simp at ht
    | cons s0 rest => exact (hwf s0 (by simp)).1
  constructor
  · rw [metrics.sigma_gak, if_neg (by omega)]
    simp only [metrics.npy3d_time_series_dataset]
    rw [metrics.pdist_eq_allPairDists, hsz]
  · rw [metrics.sigma_gak_replace]
    simp only [metrics.npy3d_time_series_dataset]
    rw [decide_eq_decide, hsz]
    push_cast
    exact Iff.rfl

/-- Witness for C3 at a concrete dataset and draw. -/
theorem sigma_gak_samples_median_scaled_witness :
    (metrics.wfDataset [[[0], [1]]] 2 1 ∧ (0 : ℤ) < 2 ∧
     metrics.validDraw (([[[0], [1]]] : List TS).length * 2) 2 [0, 1]) ∧
    metrics.sigma_gak [[[0], [1]]] 2 [0, 1] =
      (match metrics.numpy_median (metrics.allPairDists
          (([0, 1] : List ℕ).map (fun k => (metrics.flattenPoints [[[0], [1]]]).getD k []))) with
       | none => metrics.SigmaGakResult.nanResult
       | some med => metrics.SigmaGakResult.value (med * Real.sqrt ((2 : ℕ) : ℝ))) :=
  ⟨⟨by decide, by decide, by decide⟩,
    (sigma_gak_samples_median_scaled [[[0], [1]]] 2 1 2 [0, 1]
      (by decide) (by decide) (by decide)).1⟩

namespace metrics

/-- Entry extraction from a row-major matrix built over index ranges. -/
theorem entry_map_range (f : ℕ → ℕ → ℝ) (n m i j : ℕ) (hi : i < n) (hj : j < m) :
    entry ((List.range n).map (fun a => (List.range m).map (fun b => f a b))) i j = f i j := by
  rw [entry]
  have hrow : ((List.range n).map (fun a => (List.range m).map (fun b => f a b))).getD i []
      = (List.range m).map (fun b => f i b) := by
    rw [List.getD_eq_getElem _ _ (by simpa using hi), List.getElem_map, List.getElem_range]
  rw [hrow, List.getD_eq_getElem _ _ (by simpa using hj), List.getElem_map, List.getElem_range]

end metrics

/-- C6: with `dataset2` omitted (self-similarity mode), the matrices returned
by `cdist_dtw` and `cdist_gak` are symmetric, with diagonal 0 for the DTW
distance and diagonal 1 for the normalized GAK kernel. -/
theorem cdist_self_mode_symmetric_and_diag (ds : List TS) (sigma : ℝ) (i j : ℕ)
    (hi : i < ds.length) (hj : j < ds.length) :
    metrics.entry (metrics.cdist_dtw ds none) i j
      = metrics.entry (metrics.cdist_dtw ds none) j i ∧
    metrics.entry (metrics.cdist_dtw ds none) i i = 0 ∧
    metrics.entry (metrics.cdist_gak ds none sigma) i j
      = metrics.entry (metrics.cdist_gak ds none sigma) j i ∧
    metrics.entry (metrics.cdist_gak ds none sigma) i i = 1 := by
  have hdtw : ∀ a b : ℕ, a < ds.length → b < ds.length →
      metrics.entry (metrics.cdist_dtw ds none) a b =
        (if a = b then 0
         else if a < b then cydtw.dtw (ds.getD a []) (ds.getD b [])
         else cydtw.dtw (ds.getD b []) (ds.getD a [])) := by
    intro a b ha hb
    exact metrics.entry_map_range
      (fun a b => if a = b then 0
        else if a < b then cydtw.dtw (ds.getD a []) (ds.getD b [])
        else cydtw.dtw (ds.getD b []) (ds.getD a [])) ds.length ds.length a b ha hb
  have hgak : ∀ a b : ℕ, a < ds.length → b < ds.length →
      metrics.entry (metrics.cdist_gak ds none sigma) a b =
        (if a = b then 1
         else if a < b then cygak.normalized_gak (ds.getD a []) (ds.getD b []) sigma
         else cygak.normalized_gak (ds.getD b []) (ds.getD a []) sigma) := by
    intro a b ha hb
    exact metrics.entry_map_range
      (fun a b => if a = b then 1
        else if a < b then cygak.normalized_gak (ds.getD a []) (ds.getD b []) sigma
        else cygak.normalized_gak (ds.getD b []) (ds.getD a []) sigma)
      ds.length ds.length a b ha hb
  refine ⟨?_, ?_, ?_, ?_⟩
  · rw [hdtw i j hi hj, hdtw j i hj hi]
    rcases lt_trichotomy i j with h | h | h
    · rw [if_neg (by omega), if_pos h, if_neg (by omega), if_neg (by omega)]
    · rw [if_pos h, if_pos h.symm]
    · rw [if_neg (by omega), if_neg (by omega), if_neg (by omega), if_pos h]
  · rw [hdtw i i hi hi, if_pos rfl]
  · rw [hgak i j hi hj, hgak j i hj hi]
    rcases lt_trichotomy i j with h | h | h
    · rw [if_neg (by omega), if_pos h, if_neg (by omega), if_neg (by omega)]
    · rw [if_pos h, if_pos h.symm]
    · rw [if_neg (by omega), if_neg (by omega), if_neg (by omega), if_pos h]
  · rw [hgak i i hi hi, if_pos rfl]

/-- Witness for C6 at a concrete two-series dataset. -/
theorem cdist_self_mode_symmetric_and_diag_witness :
    ((0 : ℕ) < 2 ∧ (1 : ℕ) < 2) ∧
    (metrics.entry (metrics.cdist_dtw [[[0]], [[1]]] none) 0 1
        = metrics.entry (metrics.cdist_dtw [[[0]], [[1]]] none) 1 0 ∧
     metrics.entry (metrics.cdist_dtw [[[0]], [[1]]] none) 0 0 = 0 ∧
     metrics.entry (metrics.cdist_gak [[[0]], [[1]]] none 1) 0 1
        = metrics.entry (metrics.cdist_gak [[[0]], [[1]]] none 1) 1 0 ∧
     metrics.entry (metrics.cdist_gak [[[0]], [[1]]] none 1) 0 0 = 1) :=
  ⟨⟨by decide, by decide⟩,
    cdist_self_mode_symmetric_and_diag [[[0]], [[1]]] 1 0 1 (by decide) (by decide)⟩

/-- C10: the self-similarity shortcut of `cdist_dtw` and `cdist_gak` is taken
only when `dataset2` is omitted; any explicitly passed `dataset2` — including
one identical to `dataset1` — is processed with `self_similarity = False`, so
every cell of the result is computed by the pairwise engine and neither the
analytic diagonal nor the mirrored triangle is used. -/
theorem cdist_explicit_dataset2_full_computation (ds1 ds2 : List TS) (sigma : ℝ) :
    metrics.cdist_dtw_self_similarity (some ds2) = false ∧
    metrics.cdist_dtw_self_similarity none = true ∧
    metrics.cdist_gak_self_similarity (some ds2) = false ∧
    metrics.cdist_gak_self_similarity none = true ∧
    metrics.cdist_dtw ds1 (some ds2) =
      (List.range ds1.length).map (fun i => (List.range ds2.length).map (fun j =>
        cydtw.dtw (ds1.getD i []) (ds2.getD j []))) ∧
    metrics.cdist_gak ds1 (some ds2) sigma =
      (List.range ds1.length).map (fun i => (List.range ds2.length).map (fun j =>
        cygak.normalized_gak (ds1.getD i []) (ds2.getD j []) sigma)) :=
  ⟨rfl, rfl, rfl, rfl, rfl, rfl⟩

/-- C9: for every `gamma ≥ 0`, `lr_dtw` returns exactly the score component
of `lr_dtw_path`: both take the first element of the same underlying
`cylrdtw.lr_dtw` result, `lr_dtw` merely discarding the probability matrix. -/
theorem lr_dtw_eq_lr_dtw_path_score (s1 s2 : TS) (gamma : ℝ) (hg : 0 ≤ gamma) :
    metrics.lr_dtw s1 s2 gamma = (metrics.lr_dtw_path s1 s2 gamma).2 ∧
    metrics.lr_dtw s1 s2 gamma = (cylrdtw.lr_dtw s1 s2 gamma).1 ∧
    (metrics.lr_dtw_path s1 s2 gamma).2 = (cylrdtw.lr_dtw s1 s2 gamma).1 :=
  ⟨rfl, rfl, rfl⟩

/-- Witness for C9 at a concrete call. -/
theorem lr_dtw_eq_lr_dtw_path_score_witness :
    (0 : ℝ) ≤ 0 ∧
    metrics.lr_dtw [[1]] [[2]] 0 = (metrics.lr_dtw_path [[1]] [[2]] 0).2 :=
  ⟨le_refl 0, (lr_dtw_eq_lr_dtw_path_score [[1]] [[2]] 0 (le_refl 0)).1⟩

namespace cylrdtw

@[simp] theorem qcast_top : qcast ⊤ = ⊤ := rfl

@[simp] theorem qcast_coe (q : ℚ) : qcast (q : WithTop ℚ) = ((q : ℝ) : WithTop ℝ) := rfl

theorem qcast_le {a b : WithTop ℚ} : qcast a ≤ qcast b ↔ a ≤ b := by
  cases a with
  | top =>
    cases b with
    | top => simp
    | coe y => simp [qcast]
  | coe x =>
    cases b with
    | top => simp [qcast]
    | coe y => simp [qcast, Rat.cast_le]

theorem qcast_min (a b : WithTop ℚ) : qcast (min a b) = min (qcast a) (qcast b) := by
  rcases le_total a b with h | h
  · rw [min_eq_left h, min_eq_left (qcast_le.mpr h)]
  · rw [min_eq_right h, min_eq_right (qcast_le.mpr h)]

theorem qcast_add_coe (c : ℚ) (a : WithTop ℚ) :
    qcast ((c : WithTop ℚ) + a) = ((c : ℝ) : WithTop ℝ) + qcast a := by
  cases a with
  | top => simp [qcast]
  | coe x =>
    have h1 : ((c : WithTop ℚ) + (x : WithTop ℚ)) = ((c + x : ℚ) : WithTop ℚ) := by
      exact_mod_cast rfl
    have h2 : (((c : ℝ) : WithTop ℝ) + ((x : ℝ) : WithTop ℝ))
        = (((c : ℝ) + (x : ℝ) : ℝ) : WithTop ℝ) := by
      exact_mod_cast rfl
    rw [h1, qcast_coe, qcast_coe, h2]
    push_cast
    rfl

theorem qcast_untop (a : WithTop ℚ) : (qcast a).untop' 0 = ((a.untop' 0 : ℚ) : ℝ) := by
  cases a with
  | top => simp [qcast]
  | coe x => simp [qcast]

theorem min3_rot (a b c : WithTop ℝ) : min (min a b) c = min (min b c) a := by
  rw [min_assoc, min_comm]

/-- The soft minimum at temperature 0 is the hard minimum. -/
theorem softmin3_zero (dg u lf : WithTop ℝ) :
    softmin3 0 dg u lf = min (min dg u) lf := by
  rw [softmin3, if_pos rfl]

/-- At temperature 0, the LR-DTW grid coincides with the exact DTW grid. -/
theorem S_zero_eq_D (s1 s2 : TS) : ∀ i j, S 0 s1 s2 i j = qcast (cydtw.D s1 s2 i j) := by
  intro i
  induction i with
  | zero =>
    intro j
    cases j with
    | zero =>
      show rrow0 0 = qcast (cydtw.row0 0)
      simp [rrow0, cydtw.row0, qcast]
    | succ j => rfl
  | succ i ih =>
    intro j
    induction j with
    | zero => rfl
    | succ j ihj =>
      show rrowStep 0 _ (S 0 s1 s2 i) (j + 1) = _
      rw [rrowStep, softmin3_zero]
      rw [cydtw.D_succ_succ, qcast_add_coe, qcast_min, qcast_min]
      rw [ih (j + 1), ih j]
      have hl : rrowStep 0 (fun j => ((cydtw.lcost s1 s2 (i + 1) j : ℚ) : ℝ))
          (S 0 s1 s2 i) j = qcast (cydtw.D s1 s2 (i + 1) j) := ihj
      rw [hl]
      rw [min3_rot (qcast (cydtw.D s1 s2 i j)) (qcast (cydtw.D s1 s2 i (j + 1)))
        (qcast (cydtw.D s1 s2 (i + 1) j))]

/-- One-hot form of the weight triple, indexed by the chosen direction. -/
theorem weights3_zero_pick (dg u lf : WithTop ℚ) :
    weights3 0 (qcast dg) (qcast u) (qcast lf) =
      (match cydtw.pick dg u lf with
       | .diag => ((1 : ℝ), (0 : ℝ), (0 : ℝ))
       | .up => (0, 1, 0)
       | .lft => (0, 0, 1)) := by
  rw [weights3, if_pos rfl, cydtw.pick]
  by_cases h1 : dg ≤ u ∧ dg ≤ lf
  · rw [if_pos ⟨qcast_le.mpr h1.1, qcast_le.mpr h1.2⟩, if_pos h1]
  · have h1' : ¬ (qcast dg ≤ qcast u ∧ qcast dg ≤ qcast lf) := by
      intro hc
      exact h1 ⟨qcast_le.mp hc.1, qcast_le.mp hc.2⟩
    rw [if_neg h1', if_neg h1]
    by_cases h2 : u ≤ lf
    · rw [if_pos (qcast_le.mpr h2), if_pos h2]
    · rw [if_neg (fun hc => h2 (qcast_le.mp hc)), if_neg h2]

end cylrdtw

/-- Score part of C8: at temperature 0 the LR-DTW score equals the DTW
score. -/
theorem lr_dtw_zero_score_eq (s1 s2 : TS) :
    metrics.lr_dtw s1 s2 0 = metrics.dtw s1 s2 := by
  show Real.sqrt ((cylrdtw.S 0 s1 s2 s1.length s2.length).untop' 0)
      = Real.sqrt (((cydtw.D s1 s2 s1.length s2.length).untop' 0 : ℚ) : ℝ)
  rw [cylrdtw.S_zero_eq_D, cylrdtw.qcast_untop]

section genericList

variable {α : Type} {R : α → α → Prop}

theorem chain'_head_rel (ht : ∀ a b c, R a b → R b c → R a c) :
    ∀ l : List α, List.Chain' R l → ∀ x, (∀ y ∈ l.head?, R x y) → ∀ a ∈ l, R x a := by
  intro l
  induction l with
  | nil => intro _ x _ a ha; cases ha
  | cons y t ih =>
    intro hc x hx a ha
    rw [List.chain'_cons'] at hc
    have hxy : R x y := hx y rfl
    rcases List.mem_cons.mp ha with rfl | ha
    · exact hxy
    · refine ih hc.2 x ?_ a ha
      intro z hz
      exact ht x y z hxy (hc.1 z hz)

theorem pairwise_of_chain' (ht : ∀ a b c, R a b → R b c → R a c) :
    ∀ l : List α, List.Chain' R l → List.Pairwise R l := by
  intro l
  induction l with
  | nil => intro _; exact List.Pairwise.nil
  | cons x t ih =>
    intro hc
    rw [List.chain'_cons'] at hc
    rw [List.pairwise_cons]
    exact ⟨fun a ha => chain'_head_rel ht t hc.2 x hc.1 a ha, ih hc.2⟩

theorem pairwise_mem_rel :
    ∀ l : List α, List.Pairwise R l → ∀ a ∈ l, ∀ b ∈ l, a = b ∨ R a b ∨ R b a := by
  intro l
  induction l with
  | nil => intro _ a ha; cases ha
  | cons x t ih =>
    intro hp a ha b hb
    rw [List.pairwise_cons] at hp
    rcases List.mem_cons.mp ha with rfl | ha2
    · rcases List.mem_cons.mp hb with rfl | hb2
      · exact Or.inl rfl
      · exact Or.inr (Or.inl (hp.1 b hb2))
    · rcases List.mem_cons.mp hb with rfl | hb2
      · exact Or.inr (Or.inr (hp.1 a ha2))
      · exact ih hp.2 a ha2 b hb2

/-- If the chain steps strictly decrease a measure, then any member `q`
measured below a member `d` is either the immediate successor of `d` in the
chain or is measured strictly below that successor. -/
theorem chain'_next_position (meas : α → ℕ) (l : List α) (hc : List.Chain' R l)
    (hm : ∀ u v, R u v → meas v < meas u) (d q : α) (hd : d ∈ l) (hq : q ∈ l)
    (hlt : meas q < meas d) :
    ∃ nx ∈ l, R d nx ∧ (q = nx ∨ meas q < meas nx) := by
  have hp : List.Pairwise (fun u v => meas v < meas u) l :=
    @pairwise_of_chain' α (fun u v => meas v < meas u)
      (fun a b c h1 h2 => lt_trans h2 h1) l (hc.imp (fun a b h => hm a b h))
  obtain ⟨t1, t2, rfl⟩ := List.append_of_mem hd
  obtain ⟨hp1, hp2, hcross⟩ := List.pairwise_append.mp hp
  cases t2 with
  | nil =>
    rcases List.mem_append.mp hq with hq1 | hq2
    · exact absurd hlt (by have := hcross q hq1 d (by simp); omega)
    · rcases List.mem_cons.mp hq2 with rfl | h
      · omega
      · cases h
  | cons nx t3 =>
    have hRdnx : R d nx := by
      have hcr := hc.right_of_append
      exact (List.chain'_cons'.mp hcr).1 nx rfl
    refine ⟨nx, by simp, hRdnx, ?_⟩
    rcases List.mem_append.mp hq with hq1 | hq2
    · exact absurd hlt (by have := hcross q hq1 d (by simp); omega)
    · rcases List.mem_cons.mp hq2 with rfl | hq2
      · omega
      · rcases List.mem_cons.mp hq2 with rfl | hq3
        · exact Or.inl rfl
        · rw [List.pairwise_cons] at hp2
          rw [List.pairwise_cons] at hp2
          have := hp2.2.1 q hq3
          exact Or.inr this

end genericList

namespace cydtw

/-- The backtraced list is a chain of `btstep` moves with admissible reversed
steps, and all its cells are bounded by the starting cell. -/
theorem bt_chain2 (s1 s2 : TS) : ∀ k i j, i + j ≤ k → 1 ≤ i → 1 ≤ j →
    List.Chain' (fun u v => v = btstep s1 s2 u ∧ stepOK v u) (bt s1 s2 i j) ∧
    ∀ c ∈ bt s1 s2 i j, c.1 + 1 ≤ i ∧ c.2 + 1 ≤ j := by
  intro k
  induction k with
  | zero => intro i j h h1 h2; omega
  | succ k ih =>
    intro i j hk h1 h2
    obtain ⟨i, rfl⟩ : ∃ i', i = i' + 1 := ⟨i - 1, by omega⟩
    obtain ⟨j, rfl⟩ : ∃ j', j = j' + 1 := ⟨j - 1, by omega⟩
    have key : ∀ i' j', 1 ≤ i' → 1 ≤ j' → i' + j' ≤ k →
        ((i' - 1, j' - 1) = btstep s1 s2 (i, j) ∧ stepOK (i' - 1, j' - 1) (i, j)) →
        i' ≤ i + 1 → j' ≤ j + 1 →
        List.Chain' (fun u v => v = btstep s1 s2 u ∧ stepOK v u) ((i, j) :: bt s1 s2 i' j') ∧
        ∀ c ∈ (i, j) :: bt s1 s2 i' j', c.1 + 1 ≤ i + 1 ∧ c.2 + 1 ≤ j + 1 := by
      intro i' j' h1' h2' hk' hrel hbi hbj
      obtain ⟨h_head, _, _⟩ := bt_spec s1 s2 (i' + j') i' j' le_rfl h1' h2'
      obtain ⟨h_chain, h_bounds⟩ := ih i' j' hk' h1' h2'
      constructor
      · rw [List.chain'_cons']
        refine ⟨?_, h_chain⟩
        intro y hy
        rw [h_head] at hy
        cases hy
        exact hrel
      · intro c hc
        rcases List.mem_cons.mp hc with rfl | hc2
        · omega
        · have := h_bounds c hc2
          omega
    rcases Nat.eq_zero_or_pos i with hi | hi
    · rcases Nat.eq_zero_or_pos j with hj | hj
      · subst hi; subst hj
        rw [bt_eq_diag s1 s2 0 0 (pick_origin s1 s2), bt_zero_left]
        refine ⟨List.chain'_singleton _, ?_⟩
        intro c hc
        rcases List.mem_cons.mp hc with rfl | hc2
        · omega
        · cases hc2
      · subst hi
        have hp := pick_row1 s1 s2 j hj
        rw [bt_eq_lft s1 s2 0 j hp]
        have hstep : ((0 : ℕ), j - 1) = btstep s1 s2 (0, j) := by
          rw [btstep]
          simp only
          rw [hp]
        have h := key 1 j le_rfl hj (by omega)
          (by
            refine ⟨?_, ?_⟩
            · simpa using hstep
            · right; left
              refine ⟨rfl, ?_⟩
              simp
              omega)
          (by omega) (by omega)
        simpa using h
    · rcases Nat.eq_zero_or_pos j with hj | hj
      · subst hj
        have hp := pick_col1 s1 s2 i hi
        rw [bt_eq_up s1 s2 i 0 hp]
        have hstep : (i - 1, (0 : ℕ)) = btstep s1 s2 (i, 0) := by
          rw [btstep]
          simp only
          rw [hp]
        have h := key i 1 hi le_rfl (by omega)
          (by
            refine ⟨?_, ?_⟩
            · simpa using hstep
            · left
              refine ⟨?_, rfl⟩
              simp
              omega)
          (by omega) (by omega)
        simpa using h
      · rcases hpick : pick (D s1 s2 i j) (D s1 s2 i (j + 1)) (D s1 s2 (i + 1) j)
          with _ | _ | _
        · rw [bt_eq_diag s1 s2 i j hpick]
          exact key i j hi hj (by omega)
            (⟨by rw [btstep]; simp only; rw [hpick],
              by right; right; constructor <;> simp <;> omega⟩)
            (by omega) (by omega)
        · rw [bt_eq_up s1 s2 i j hpick]
          exact key i (j + 1) hi (by omega) (by omega)
            (⟨by rw [btstep]; simp only; rw [hpick]; simp,
              by left; constructor <;> simp <;> omega⟩)
            (by omega) (by omega)
        · rw [bt_eq_lft s1 s2 i j hpick]
          exact key (i + 1) j (by omega) hj (by omega)
            (⟨by rw [btstep]; simp only; rw [hpick]; simp,
              by right; left; constructor <;> simp <;> omega⟩)
            (by omega) (by omega)

end cydtw

theorem chain'_next_mem {α : Type} {R : α → α → Prop} :
    ∀ l : List α, List.Chain' R l → ∀ a ∈ l, l.getLast? ≠ some a → ∃ b ∈ l, R a b := by
  intro l
  induction l with
  | nil => intro _ a ha; cases ha
  | cons x t ih =>
    intro hc a ha hlast
    rw [List.chain'_cons'] at hc
    rcases List.mem_cons.mp ha with rfl | ha2
    · cases t with
      | nil => exact absurd rfl hlast
      | cons y t' => exact ⟨y, by simp, hc.1 y rfl⟩
    · have hne : t ≠ [] := List.ne_nil_of_mem ha2
      have hlast' : t.getLast? ≠ some a := by
        rw [cydtw.getLast?_cons_ne x t hne] at hlast
        exact hlast
      obtain ⟨b, hb, hr⟩ := ih hc.2 a ha2 hlast'
      exact ⟨b, by simp [hb], hr⟩

theorem chain'_prev_mem {α : Type} {R : α → α → Prop} :
    ∀ l : List α, List.Chain' R l → ∀ a ∈ l, l.head? ≠ some a → ∃ b ∈ l, R b a := by
  intro l
  induction l with
  | nil => intro _ a ha; cases ha
  | cons x t ih =>
    intro hc a ha hhead
    rw [List.chain'_cons'] at hc
    rcases List.mem_cons.mp ha with rfl | ha2
    · exact absurd rfl hhead
    · cases t with
      | nil => cases ha2
      | cons y t' =>
        by_cases hay : a = y
        · subst hay
          exact ⟨x, by simp, hc.1 a rfl⟩
        · have hhead' : (y :: t').head? ≠ some a := by
            intro hcon
            rw [List.head?_cons] at hcon
            cases hcon
            exact hay rfl
          obtain ⟨b, hb, hr⟩ := ih hc.2 a ha2 hhead'
          exact ⟨b, by simp [hb], hr⟩

namespace cydtw

theorem stepOK_sum_lt {u v : ℕ × ℕ} (h : stepOK v u) : v.1 + v.2 < u.1 + u.2 := by
  rcases h with ⟨h1, h2⟩ | ⟨h1, h2⟩ | ⟨h1, h2⟩ <;> omega

theorem bt_head_mem (s1 s2 : TS) (n m : ℕ) (hn : 1 ≤ n) (hm : 1 ≤ m) :
    (n - 1, m - 1) ∈ bt s1 s2 n m := by
  obtain ⟨hh, _, _⟩ := bt_spec s1 s2 (n + m) n m le_rfl hn hm
  apply List.mem_of_mem_head?
  rw [hh]
  rfl

theorem bt_mem_next (s1 s2 : TS) (n m : ℕ) (hn : 1 ≤ n) (hm : 1 ≤ m) (c : ℕ × ℕ)
    (hc : c ∈ bt s1 s2 n m) (hc0 : c ≠ (0, 0)) :
    btstep s1 s2 c ∈ bt s1 s2 n m ∧ stepOK (btstep s1 s2 c) c := by
  obtain ⟨hchain, _⟩ := bt_chain2 s1 s2 (n + m) n m le_rfl hn hm
  obtain ⟨_, hl, _⟩ := bt_spec s1 s2 (n + m) n m le_rfl hn hm
  have hlast : (bt s1 s2 n m).getLast? ≠ some c := by
    rw [hl]
    intro hcon
    cases hcon
    exact hc0 rfl
  obtain ⟨b, hb, heq, hstep⟩ := chain'_next_mem _ hchain c hc hlast
  subst heq
  exact ⟨hb, hstep⟩

theorem bt_mem_prev (s1 s2 : TS) (n m : ℕ) (hn : 1 ≤ n) (hm : 1 ≤ m) (c : ℕ × ℕ)
    (hc : c ∈ bt s1 s2 n m) (hch : c ≠ (n - 1, m - 1)) :
    ∃ r ∈ bt s1 s2 n m, c = btstep s1 s2 r ∧ stepOK c r := by
  obtain ⟨hchain, _⟩ := bt_chain2 s1 s2 (n + m) n m le_rfl hn hm
  obtain ⟨hh, _, _⟩ := bt_spec s1 s2 (n + m) n m le_rfl hn hm
  have hhead : (bt s1 s2 n m).head? ≠ some c := by
    rw [hh]
    intro hcon
    cases hcon
    exact hch rfl
  obtain ⟨r, hr, heq, hstep⟩ := chain'_prev_mem _ hchain c hc hhead
  exact ⟨r, hr, heq, hstep⟩

theorem bt_pairwise_sum (s1 s2 : TS) (n m : ℕ) (hn : 1 ≤ n) (hm : 1 ≤ m) :
    List.Pairwise (fun u v : ℕ × ℕ => v.1 + v.2 < u.1 + u.2) (bt s1 s2 n m) := by
  obtain ⟨hchain, _⟩ := bt_chain2 s1 s2 (n + m) n m le_rfl hn hm
  exact @pairwise_of_chain' (ℕ × ℕ) (fun u v => v.1 + v.2 < u.1 + u.2)
    (fun a b c h1 h2 => lt_trans h2 h1) _
    (hchain.imp (fun a b h => stepOK_sum_lt h.2))

theorem bt_level_unique (s1 s2 : TS) (n m : ℕ) (hn : 1 ≤ n) (hm : 1 ≤ m) (c c' : ℕ × ℕ)
    (hc : c ∈ bt s1 s2 n m) (hc' : c' ∈ bt s1 s2 n m)
    (hsum : c.1 + c.2 = c'.1 + c'.2) : c = c' := by
  rcases pairwise_mem_rel _ (bt_pairwise_sum s1 s2 n m hn hm) c hc c' hc' with h | h | h
  · exact h
  · omega
  · omega

theorem bt_next_position (s1 s2 : TS) (n m : ℕ) (hn : 1 ≤ n) (hm : 1 ≤ m) (d q : ℕ × ℕ)
    (hd : d ∈ bt s1 s2 n m) (hq : q ∈ bt s1 s2 n m)
    (hlt : q.1 + q.2 < d.1 + d.2) :
    q = btstep s1 s2 d ∨ q.1 + q.2 < (btstep s1 s2 d).1 + (btstep s1 s2 d).2 := by
  obtain ⟨hchain, _⟩ := bt_chain2 s1 s2 (n + m) n m le_rfl hn hm
  obtain ⟨nx, _, ⟨heq, _⟩, hpos⟩ := chain'_next_position (fun c : ℕ × ℕ => c.1 + c.2)
    _ hchain (fun u v hr => stepOK_sum_lt hr.2) d q hd hq hlt
  subst heq
  exact hpos

end cydtw

namespace cylrdtw

/-- Unfolding of the backward mass recursion. -/
theorem mass_unfold (gamma : ℝ) (s1 s2 : TS) (n m i j : ℕ) :
    mass gamma s1 s2 n m i j =
      (if i = n ∧ j = m then 1 else 0)
      + (if i < n ∧ j ≤ m then
          mass gamma s1 s2 n m (i + 1) j * (wcell gamma s1 s2 (i + 1) j).2.1 else 0)
      + (if i ≤ n ∧ j < m then
          mass gamma s1 s2 n m i (j + 1) * (wcell gamma s1 s2 i (j + 1)).2.2 else 0)
      + (if i < n ∧ j < m then
          mass gamma s1 s2 n m (i + 1) (j + 1) * (wcell gamma s1 s2 (i + 1) (j + 1)).1 else 0) := by
  rw [mass]
  simp only [dite_eq_ite]

/-- The weight triple at temperature 0 is the one-hot vector of the DTW
backtrace pick. -/
theorem wcell_zero (s1 s2 : TS) (a b : ℕ) :
    wcell 0 s1 s2 (a + 1) (b + 1) =
      (match cydtw.pick (cydtw.D s1 s2 a b) (cydtw.D s1 s2 a (b + 1))
          (cydtw.D s1 s2 (a + 1) b) with
       | .diag => ((1 : ℝ), (0 : ℝ), (0 : ℝ))
       | .up => (0, 1, 0)
       | .lft => (0, 0, 1)) := by
  show weights3 0 (S 0 s1 s2 a b) (S 0 s1 s2 a (b + 1)) (S 0 s1 s2 (a + 1) b) = _
  rw [S_zero_eq_D, S_zero_eq_D, S_zero_eq_D, weights3_zero_pick]

end cylrdtw

namespace cydtw

/-- Unfolding of `btstep` on an explicit pair. -/
theorem btstep_mk (s1 s2 : TS) (a b : ℕ) :
    btstep s1 s2 (a, b) =
      (match pick (D s1 s2 a b) (D s1 s2 a (b + 1)) (D s1 s2 (a + 1) b) with
       | .diag => (a - 1, b - 1)
       | .up => (a - 1, b)
       | .lft => (a, b - 1)) := rfl

end cydtw

/-- At temperature 0 the backward-propagated mass is the indicator of the
DTW backtrace chain. -/
theorem mass_zero_indicator (s1 s2 : TS) (hn : 1 ≤ s1.length) (hm : 1 ≤ s2.length) :
    ∀ k i j, s1.length + s2.length ≤ i + j + k → 1 ≤ i → i ≤ s1.length → 1 ≤ j →
      j ≤ s2.length →
    cylrdtw.mass 0 s1 s2 s1.length s2.length i j
      = if (i - 1, j - 1) ∈ cydtw.bt s1 s2 s1.length s2.length then 1 else 0 := by
  intro k
  induction k with
  | zero =>
    intro i j hk h1i h2i h1j h2j
    have hi : i = s1.length := by omega
    have hj : j = s2.length := by omega
    subst hi; subst hj
    rw [cylrdtw.mass_unfold, if_pos ⟨rfl, rfl⟩, if_neg (by omega), if_neg (by omega),
      if_neg (by omega), if_pos (cydtw.bt_head_mem s1 s2 _ _ hn hm)]
    norm_num
  | succ k ih =>
    intro i j hk h1i h2i h1j h2j
    by_cases hend : i = s1.length ∧ j = s2.length
    · obtain ⟨hi, hj⟩ := hend
      subst hi; subst hj
      rw [cylrdtw.mass_unfold, if_pos ⟨rfl, rfl⟩, if_neg (by omega), if_neg (by omega),
        if_neg (by omega), if_pos (cydtw.bt_head_mem s1 s2 _ _ hn hm)]
      norm_num
    · obtain ⟨i', rfl⟩ : ∃ i', i = i' + 1 := ⟨i - 1, by omega⟩
      obtain ⟨j', rfl⟩ : ∃ j', j = j' + 1 := ⟨j - 1, by omega⟩
      rw [cylrdtw.mass_unfold, if_neg hend]
      simp only [Nat.add_sub_cancel]
      have hT1 : (if i' + 1 < s1.length ∧ j' + 1 ≤ s2.length then
            cylrdtw.mass 0 s1 s2 s1.length s2.length (i' + 1 + 1) (j' + 1) *
              (cylrdtw.wcell 0 s1 s2 (i' + 1 + 1) (j' + 1)).2.1 else 0)
          = if (i' + 1 < s1.length ∧ (i' + 1, j') ∈ cydtw.bt s1 s2 s1.length s2.length ∧
              cydtw.pick (cydtw.D s1 s2 (i' + 1) j') (cydtw.D s1 s2 (i' + 1) (j' + 1))
                (cydtw.D s1 s2 (i' + 1 + 1) j') = .up) then 1 else 0 := by
        by_cases hg : i' + 1 < s1.length ∧ j' + 1 ≤ s2.length
        · rw [if_pos hg]
          have hmass := ih (i' + 1 + 1) (j' + 1) (by omega) (by omega) (by omega)
            (by omega) (by omega)
          simp only [Nat.add_sub_cancel] at hmass
          rw [hmass, cylrdtw.wcell_zero]
          rcases hp : cydtw.pick (cydtw.D s1 s2 (i' + 1) j') (cydtw.D s1 s2 (i' + 1) (j' + 1))
              (cydtw.D s1 s2 (i' + 1 + 1) j') with _ | _ | _
          · simp
          · by_cases hmm2 : (i' + 1, j') ∈ cydtw.bt s1 s2 s1.length s2.length
            · simp [hmm2, hg.1]
            · simp [hmm2]
          · simp
        · rw [if_neg hg, if_neg (by rintro ⟨hcon, _, _⟩; exact hg ⟨hcon, by omega⟩)]
      have hT2 : (if i' + 1 ≤ s1.length ∧ j' + 1 < s2.length then
            cylrdtw.mass 0 s1 s2 s1.length s2.length (i' + 1) (j' + 1 + 1) *
              (cylrdtw.wcell 0 s1 s2 (i' + 1) (j' + 1 + 1)).2.2 else 0)
          = if (j' + 1 < s2.length ∧ (i', j' + 1) ∈ cydtw.bt s1 s2 s1.length s2.length ∧
              cydtw.pick (cydtw.D s1 s2 i' (j' + 1)) (cydtw.D s1 s2 i' (j' + 1 + 1))
                (cydtw.D s1 s2 (i' + 1) (j' + 1)) = .lft) then 1 else 0 := by
        by_cases hg : i' + 1 ≤ s1.length ∧ j' + 1 < s2.length
        · rw [if_pos hg]
          have hmass := ih (i' + 1) (j' + 1 + 1) (by omega) (by omega) (by omega)
            (by omega) (by omega)
          simp only [Nat.add_sub_cancel] at hmass
          rw [hmass, cylrdtw.wcell_zero]
          rcases hp : cydtw.pick (cydtw.D s1 s2 i' (j' + 1)) (cydtw.D s1 s2 i' (j' + 1 + 1))
              (cydtw.D s1 s2 (i' + 1) (j' + 1)) with _ | _ | _
          · simp
          · simp
          · by_cases hmm2 : (i', j' + 1) ∈ cydtw.bt s1 s2 s1.length s2.length
            · simp [hmm2, hg.2]
            · simp [hmm2]
        · rw [if_neg hg, if_neg (by rintro ⟨hcon, _, _⟩; exact hg ⟨by omega, hcon⟩)]
      have hT3 : (if i' + 1 < s1.length ∧ j' + 1 < s2.length then
            cylrdtw.mass 0 s1 s2 s1.length s2.length (i' + 1 + 1) (j' + 1 + 1) *
              (cylrdtw.wcell 0 s1 s2 (i' + 1 + 1) (j' + 1 + 1)).1 else 0)
          = if (i' + 1 < s1.length ∧ j' + 1 < s2.length ∧
              (i' + 1, j' + 1) ∈ cydtw.bt s1 s2 s1.length s2.length ∧
              cydtw.pick (cydtw.D s1 s2 (i' + 1) (j' + 1)) (cydtw.D s1 s2 (i' + 1) (j' + 1 + 1))
                (cydtw.D s1 s2 (i' + 1 + 1) (j' + 1)) = .diag) then 1 else 0 := by
        by_cases hg : i' + 1 < s1.length ∧ j' + 1 < s2.length
        · rw [if_pos hg]
          have hmass := ih (i' + 1 + 1) (j' + 1 + 1) (by omega) (by omega) (by omega)
            (by omega) (by omega)
          simp only [Nat.add_sub_cancel] at hmass
          rw [hmass, cylrdtw.wcell_zero]
          rcases hp : cydtw.pick (cydtw.D s1 s2 (i' + 1) (j' + 1))
              (cydtw.D s1 s2 (i' + 1) (j' + 1 + 1))
              (cydtw.D s1 s2 (i' + 1 + 1) (j' + 1)) with _ | _ | _
          · by_cases hmm2 : (i' + 1, j' + 1) ∈ cydtw.bt s1 s2 s1.length s2.length
            · simp [hmm2, hg.1, hg.2]
            · simp [hmm2]
          · simp
          · simp
        · rw [if_neg hg, if_neg (by rintro ⟨hc1, hc2, _, _⟩; exact hg ⟨hc1, hc2⟩)]
      rw [hT1, hT2, hT3]
      by_cases hmem : (i', j') ∈ cydtw.bt s1 s2 s1.length s2.length
      · have hch : (i', j') ≠ (s1.length - 1, s2.length - 1) := by
          intro hcon
          simp only [Prod.mk.injEq] at hcon
          exact hend ⟨by omega, by omega⟩
        obtain ⟨r, hrmem, hrstep, hrOK⟩ :=
          cydtw.bt_mem_prev s1 s2 _ _ hn hm (i', j') hmem hch
        obtain ⟨_, hbounds⟩ :=
          cydtw.bt_chain2 s1 s2 (s1.length + s2.length) s1.length s2.length le_rfl hn hm
        have hrb := hbounds r hrmem
        rcases r with ⟨r1, r2⟩
        have hrb1 : r1 + 1 ≤ s1.length := hrb.1
        have hrb2 : r2 + 1 ≤ s2.length := hrb.2
        rcases hrOK with ⟨hr1, hr2⟩ | ⟨hr1, hr2⟩ | ⟨hr1, hr2⟩
        · -- r = (i' + 1, j') : the up-successor carries the mass
          have hr1' : r1 = i' + 1 := hr1
          have hr2' : r2 = j' := hr2
          rw [hr1'] at hrmem hrstep hrb1
          rw [hr2'] at hrmem hrstep hrb2
          have hpick1 : cydtw.pick (cydtw.D s1 s2 (i' + 1) j')
              (cydtw.D s1 s2 (i' + 1) (j' + 1)) (cydtw.D s1 s2 (i' + 1 + 1) j') = .up := by
            rcases hp : cydtw.pick (cydtw.D s1 s2 (i' + 1) j')
                (cydtw.D s1 s2 (i' + 1) (j' + 1)) (cydtw.D s1 s2 (i' + 1 + 1) j')
              with _ | _ | _
            · rw [cydtw.btstep_mk, hp] at hrstep
              simp only [Nat.add_sub_cancel, Prod.mk.injEq] at hrstep
              have hj0 : j' = 0 := by omega
              subst hj0
              have hcol := cydtw.pick_col1 s1 s2 (i' + 1) (by omega)
              simp only [Nat.zero_add] at hp
              rw [hp] at hcol
              cases hcol
            · rfl
            · rw [cydtw.btstep_mk, hp] at hrstep
              simp only [Nat.add_sub_cancel, Prod.mk.injEq] at hrstep
              omega
          have hA1yes : i' + 1 < s1.length ∧
              (i' + 1, j') ∈ cydtw.bt s1 s2 s1.length s2.length ∧
              cydtw.pick (cydtw.D s1 s2 (i' + 1) j') (cydtw.D s1 s2 (i' + 1) (j' + 1))
                (cydtw.D s1 s2 (i' + 1 + 1) j') = .up := ⟨by omega, hrmem, hpick1⟩
          rw [if_pos hA1yes]
          have hA2 : ¬ (j' + 1 < s2.length ∧
              (i', j' + 1) ∈ cydtw.bt s1 s2 s1.length s2.length ∧
              cydtw.pick (cydtw.D s1 s2 i' (j' + 1)) (cydtw.D s1 s2 i' (j' + 1 + 1))
                (cydtw.D s1 s2 (i' + 1) (j' + 1)) = .lft) := by
            rintro ⟨_, hmem2, _⟩
            have heq := cydtw.bt_level_unique s1 s2 _ _ hn hm _ _ hmem2 hrmem (by
              show i' + (j' + 1) = i' + 1 + j'
              omega)
            simp only [Prod.mk.injEq] at heq
            omega
          have hA3 : ¬ (i' + 1 < s1.length ∧ j' + 1 < s2.length ∧
              (i' + 1, j' + 1) ∈ cydtw.bt s1 s2 s1.length s2.length ∧
              cydtw.pick (cydtw.D s1 s2 (i' + 1) (j' + 1)) (cydtw.D s1 s2 (i' + 1) (j' + 1 + 1))
                (cydtw.D s1 s2 (i' + 1 + 1) (j' + 1)) = .diag) := by
            rintro ⟨_, _, hmem3, hpick3⟩
            have hpos := cydtw.bt_next_position s1 s2 _ _ hn hm (i' + 1, j' + 1) (i' + 1, j')
              hmem3 hrmem (by show i' + 1 + j' < i' + 1 + (j' + 1); omega)
            rw [cydtw.btstep_mk, hpick3] at hpos
            simp only [Nat.add_sub_cancel] at hpos
            rcases hpos with h | h
            · simp only [Prod.mk.injEq] at h
              omega
            · have h' : i' + 1 + j' < i' + j' := h
              omega
          rw [if_neg hA2, if_neg hA3, if_pos hmem]
          norm_num
        · -- r = (i', j' + 1) : the left-successor carries the mass
          have hr1' : r1 = i' := hr1
          have hr2' : r2 = j' + 1 := hr2
          rw [hr1'] at hrmem hrstep hrb1
          rw [hr2'] at hrmem hrstep hrb2
          have hpick2 : cydtw.pick (cydtw.D s1 s2 i' (j' + 1))
              (cydtw.D s1 s2 i' (j' + 1 + 1)) (cydtw.D s1 s2 (i' + 1) (j' + 1)) = .lft := by
            rcases hp : cydtw.pick (cydtw.D s1 s2 i' (j' + 1))
                (cydtw.D s1 s2 i' (j' + 1 + 1)) (cydtw.D s1 s2 (i' + 1) (j' + 1))
              with _ | _ | _
            · rw [cydtw.btstep_mk, hp] at hrstep
              simp only [Nat.add_sub_cancel, Prod.mk.injEq] at hrstep
              have hi0 : i' = 0 := by omega
              subst hi0
              have hrow := cydtw.pick_row1 s1 s2 (j' + 1) (by omega)
              simp only [Nat.zero_add] at hp
              rw [hp] at hrow
              cases hrow
            · rw [cydtw.btstep_mk, hp] at hrstep
              simp only [Nat.add_sub_cancel, Prod.mk.injEq] at hrstep
              omega
            · rfl
          have hA2yes : j' + 1 < s2.length ∧
              (i', j' + 1) ∈ cydtw.bt s1 s2 s1.length s2.length ∧
              cydtw.pick (cydtw.D s1 s2 i' (j' + 1)) (cydtw.D s1 s2 i' (j' + 1 + 1))
                (cydtw.D s1 s2 (i' + 1) (j' + 1)) = .lft := ⟨by omega, hrmem, hpick2⟩
          rw [if_pos hA2yes]
          have hA1 : ¬ (i' + 1 < s1.length ∧
              (i' + 1, j') ∈ cydtw.bt s1 s2 s1.length s2.length ∧
              cydtw.pick (cydtw.D s1 s2 (i' + 1) j') (cydtw.D s1 s2 (i' + 1) (j' + 1))
                (cydtw.D s1 s2 (i' + 1 + 1) j') = .up) := by
            rintro ⟨_, hmem1, _⟩
            have heq := cydtw.bt_level_unique s1 s2 _ _ hn hm _ _ hmem1 hrmem (by
              show i' + 1 + j' = i' + (j' + 1)
              omega)
            simp only [Prod.mk.injEq] at heq
            omega
          have hA3 : ¬ (i' + 1 < s1.length ∧ j' + 1 < s2.length ∧
              (i' + 1, j' + 1) ∈ cydtw.bt s1 s2 s1.length s2.length ∧
              cydtw.pick (cydtw.D s1 s2 (i' + 1) (j' + 1)) (cydtw.D s1 s2 (i' + 1) (j' + 1 + 1))
                (cydtw.D s1 s2 (i' + 1 + 1) (j' + 1)) = .diag) := by
            rintro ⟨_, _, hmem3, hpick3⟩
            have hpos := cydtw.bt_next_position s1 s2 _ _ hn hm (i' + 1, j' + 1) (i', j' + 1)
              hmem3 hrmem (by show i' + (j' + 1) < i' + 1 + (j' + 1); omega)
            rw [cydtw.btstep_mk, hpick3] at hpos
            simp only [Nat.add_sub_cancel] at hpos
            rcases hpos with h | h
            · simp only [Prod.mk.injEq] at h
              omega
            · have h' : i' + (j' + 1) < i' + j' := h
              omega
          rw [if_neg hA1, if_neg hA3, if_pos hmem]
          norm_num
        · -- r = (i' + 1, j' + 1) : the diagonal successor carries the mass
          have hr1' : r1 = i' + 1 := hr1
          have hr2' : r2 = j' + 1 := hr2
          rw [hr1'] at hrmem hrstep hrb1
          rw [hr2'] at hrmem hrstep hrb2
          have hpick3 : cydtw.pick (cydtw.D s1 s2 (i' + 1) (j' + 1))
              (cydtw.D s1 s2 (i' + 1) (j' + 1 + 1)) (cydtw.D s1 s2 (i' + 1 + 1) (j' + 1))
              = .diag := by
            rcases hp : cydtw.pick (cydtw.D s1 s2 (i' + 1) (j' + 1))
                (cydtw.D s1 s2 (i' + 1) (j' + 1 + 1)) (cydtw.D s1 s2 (i' + 1 + 1) (j' + 1))
              with _ | _ | _
            · rfl
            · rw [cydtw.btstep_mk, hp] at hrstep
              simp only [Nat.add_sub_cancel, Prod.mk.injEq] at hrstep
              omega
            · rw [cydtw.btstep_mk, hp] at hrstep
              simp only [Nat.add_sub_cancel, Prod.mk.injEq] at hrstep
              omega
          have hA3yes : i' + 1 < s1.length ∧ j' + 1 < s2.length ∧
              (i' + 1, j' + 1) ∈ cydtw.bt s1 s2 s1.length s2.length ∧
              cydtw.pick (cydtw.D s1 s2 (i' + 1) (j' + 1)) (cydtw.D s1 s2 (i' + 1) (j' + 1 + 1))
                (cydtw.D s1 s2 (i' + 1 + 1) (j' + 1)) = .diag :=
            ⟨by omega, by omega, hrmem, hpick3⟩
          rw [if_pos hA3yes]
          have hbs : cydtw.btstep s1 s2 (i' + 1, j' + 1) = (i', j') := by
            rw [cydtw.btstep_mk, hpick3]
            simp only [Nat.add_sub_cancel]
          have hA1 : ¬ (i' + 1 < s1.length ∧
              (i' + 1, j') ∈ cydtw.bt s1 s2 s1.length s2.length ∧
              cydtw.pick (cydtw.D s1 s2 (i' + 1) j') (cydtw.D s1 s2 (i' + 1) (j' + 1))
                (cydtw.D s1 s2 (i' + 1 + 1) j') = .up) := by
            rintro ⟨_, hmem1, _⟩
            have hpos := cydtw.bt_next_position s1 s2 _ _ hn hm (i' + 1, j' + 1) (i' + 1, j')
              hrmem hmem1 (by show i' + 1 + j' < i' + 1 + (j' + 1); omega)
            rw [hbs] at hpos
            rcases hpos with h | h
            · simp only [Prod.mk.injEq] at h
              omega
            · have h' : i' + 1 + j' < i' + j' := h
              omega
          have hA2 : ¬ (j' + 1 < s2.length ∧
              (i', j' + 1) ∈ cydtw.bt s1 s2 s1.length s2.length ∧
              cydtw.pick (cydtw.D s1 s2 i' (j' + 1)) (cydtw.D s1 s2 i' (j' + 1 + 1))
                (cydtw.D s1 s2 (i' + 1) (j' + 1)) = .lft) := by
            rintro ⟨_, hmem2, _⟩
            have hpos := cydtw.bt_next_position s1 s2 _ _ hn hm (i' + 1, j' + 1) (i', j' + 1)
              hrmem hmem2 (by show i' + (j' + 1) < i' + 1 + (j' + 1); omega)
            rw [hbs] at hpos
            rcases hpos with h | h
            · simp only [Prod.mk.injEq] at h
              omega
            · have h' : i' + (j' + 1) < i' + j' := h
              omega
          rw [if_neg hA1, if_neg hA2, if_pos hmem]
          norm_num
      · have hA1 : ¬ (i' + 1 < s1.length ∧
            (i' + 1, j') ∈ cydtw.bt s1 s2 s1.length s2.length ∧
            cydtw.pick (cydtw.D s1 s2 (i' + 1) j') (cydtw.D s1 s2 (i' + 1) (j' + 1))
              (cydtw.D s1 s2 (i' + 1 + 1) j') = .up) := by
          rintro ⟨_, hmemX, hpick⟩
          have hnext := cydtw.bt_mem_next s1 s2 _ _ hn hm (i' + 1, j') hmemX (by
            intro hcon
            simp only [Prod.mk.injEq] at hcon
            omega)
          rw [cydtw.btstep_mk, hpick] at hnext
          simp only [Nat.add_sub_cancel] at hnext
          exact hmem hnext.1
        have hA2 : ¬ (j' + 1 < s2.length ∧
            (i', j' + 1) ∈ cydtw.bt s1 s2 s1.length s2.length ∧
            cydtw.pick (cydtw.D s1 s2 i' (j' + 1)) (cydtw.D s1 s2 i' (j' + 1 + 1))
              (cydtw.D s1 s2 (i' + 1) (j' + 1)) = .lft) := by
          rintro ⟨_, hmemX, hpick⟩
          have hnext := cydtw.bt_mem_next s1 s2 _ _ hn hm (i', j' + 1) hmemX (by
            intro hcon
            simp only [Prod.mk.injEq] at hcon
            omega)
          rw [cydtw.btstep_mk, hpick] at hnext
          simp only [Nat.add_sub_cancel] at hnext
          exact hmem hnext.1
        have hA3 : ¬ (i' + 1 < s1.length ∧ j' + 1 < s2.length ∧
            (i' + 1, j' + 1) ∈ cydtw.bt s1 s2 s1.length s2.length ∧
            cydtw.pick (cydtw.D s1 s2 (i' + 1) (j' + 1)) (cydtw.D s1 s2 (i' + 1) (j' + 1 + 1))
              (cydtw.D s1 s2 (i' + 1 + 1) (j' + 1)) = .diag) := by
          rintro ⟨_, _, hmemX, hpick⟩
          have hnext := cydtw.bt_mem_next s1 s2 _ _ hn hm (i' + 1, j' + 1) hmemX (by
            intro hcon
            simp only [Prod.mk.injEq] at hcon
            omega)
          rw [cydtw.btstep_mk, hpick] at hnext
          simp only [Nat.add_sub_cancel] at hnext
          exact hmem hnext.1
        rw [if_neg hA1, if_neg hA2, if_neg hA3, if_neg hmem]
        norm_num

/-- Squared Euclidean distances are non-negative. -/
theorem sqdist_nonneg : ∀ p q : Pt, 0 ≤ sqdist p q := by
  intro p
  induction p with
  | nil => intro q; cases q with
    | nil => exact le_refl 0
    | cons b bs => exact le_refl 0
  | cons a as ih =>
    intro q
    cases q with
    | nil => exact le_refl 0
    | cons b bs =>
      show 0 ≤ (a - b) ^ 2 + (List.zipWith (fun a b => (a - b) ^ 2) as bs).sum
      have h := ih bs
      have h2 : (0 : ℚ) ≤ (a - b) ^ 2 := sq_nonneg _
      exact add_nonneg h2 h

namespace cydtw

/-- An up pick means the up predecessor is strictly below the diagonal one. -/
theorem pick_up_lt {dg u lf : WithTop ℚ} (h : pick dg u lf = .up) : u < dg ∧ u ≤ lf := by
  unfold pick at h
  by_cases h1 : dg ≤ u ∧ dg ≤ lf
  · rw [if_pos h1] at h; cases h
  · rw [if_neg h1] at h
    by_cases h2 : u ≤ lf
    · have hdu : ¬ (dg ≤ u) := fun hdu => h1 ⟨hdu, le_trans hdu h2⟩
      exact ⟨not_le.mp hdu, h2⟩
    · rw [if_neg h2] at h; cases h

/-- A left pick means the left predecessor is strictly below both others. -/
theorem pick_lft_lt {dg u lf : WithTop ℚ} (h : pick dg u lf = .lft) : lf < u ∧ lf < dg := by
  unfold pick at h
  by_cases h1 : dg ≤ u ∧ dg ≤ lf
  · rw [if_pos h1] at h; cases h
  · rw [if_neg h1] at h
    by_cases h2 : u ≤ lf
    · rw [if_pos h2] at h; cases h
    · have hlu : lf < u := not_le.mp h2
      refine ⟨hlu, ?_⟩
      by_contra hld
      have hld' : dg ≤ lf := not_lt.mp hld
      exact h1 ⟨le_trans hld' (le_of_lt hlu), hld'⟩

/-- After an up pick, the grid does not decrease from the up predecessor. -/
theorem D_ge_up (s1 s2 : TS) (x y : ℕ)
    (h : pick (D s1 s2 x y) (D s1 s2 x (y + 1)) (D s1 s2 (x + 1) y) = .up) :
    D s1 s2 x (y + 1) ≤ D s1 s2 (x + 1) (y + 1) := by
  obtain ⟨h1, h2⟩ := pick_up_lt h
  rw [D_succ_succ]
  have hmin : min (min (D s1 s2 x (y + 1)) (D s1 s2 (x + 1) y)) (D s1 s2 x y)
      = D s1 s2 x (y + 1) := by
    rw [min_eq_left h2, min_eq_left (le_of_lt h1)]
  rw [hmin]
  refine le_add_of_nonneg_left ?_
  have : ((0 : ℚ) : WithTop ℚ) ≤ (lcost s1 s2 (x + 1) (y + 1) : WithTop ℚ) := by
    exact_mod_cast sqdist_nonneg _ _
  simpa using this

/-- After a left pick, the grid does not decrease from the left predecessor. -/
theorem D_ge_lft (s1 s2 : TS) (x y : ℕ)
    (h : pick (D s1 s2 x y) (D s1 s2 x (y + 1)) (D s1 s2 (x + 1) y) = .lft) :
    D s1 s2 (x + 1) y ≤ D s1 s2 (x + 1) (y + 1) := by
  obtain ⟨h1, h2⟩ := pick_lft_lt h
  rw [D_succ_succ]
  have hmin : min (min (D s1 s2 x (y + 1)) (D s1 s2 (x + 1) y)) (D s1 s2 x y)
      = D s1 s2 (x + 1) y := by
    rw [min_eq_right (le_of_lt h1), min_eq_left (le_of_lt h2)]
  rw [hmin]
  refine le_add_of_nonneg_left ?_
  have : ((0 : ℚ) : WithTop ℚ) ≤ (lcost s1 s2 (x + 1) (y + 1) : WithTop ℚ) := by
    exact_mod_cast sqdist_nonneg _ _
  simpa using this

end cydtw

namespace cylrdtw

theorem descend_origin (P : ℕ → ℕ → ℝ) : descend P 0 0 = [(0, 0)] := by
  rw [descend]

theorem descend_col (P : ℕ → ℕ → ℝ) (a : ℕ) :
    descend P (a + 1) 0 = (a + 1, 0) :: descend P a 0 := by
  rw [descend]

theorem descend_row (P : ℕ → ℕ → ℝ) (b : ℕ) :
    descend P 0 (b + 1) = (0, b + 1) :: descend P 0 b := by
  rw [descend]

theorem descend_interior (P : ℕ → ℕ → ℝ) (a b : ℕ) :
    descend P (a + 1) (b + 1) = (a + 1, b + 1) ::
      (if P a b ≥ P a (b + 1) ∧ P a b ≥ P (a + 1) b then descend P a b
       else if P a (b + 1) ≥ P (a + 1) b then descend P a (b + 1)
       else descend P (a + 1) b) := by
  rw [descend]

/-- Indicator values are at most 1. -/
theorem ind_le_one (c : Prop) [Decidable c] : (if c then (1 : ℝ) else 0) ≤ 1 := by
  split
  · exact le_refl 1
  · norm_num

end cylrdtw

/-- On a probability map that is the indicator of the DTW backtrace chain,
the greedy descent from any chain cell reproduces the backtrace. -/
theorem descend_eq_bt_aux (s1 s2 : TS) (hn : 1 ≤ s1.length) (hm : 1 ≤ s2.length)
    (P : ℕ → ℕ → ℝ)
    (hP : ∀ x y, x + 1 ≤ s1.length → y + 1 ≤ s2.length →
      P x y = if (x, y) ∈ cydtw.bt s1 s2 s1.length s2.length then 1 else 0) :
    ∀ k a b, a + b ≤ k → (a, b) ∈ cydtw.bt s1 s2 s1.length s2.length →
    cylrdtw.descend P a b = cydtw.bt s1 s2 (a + 1) (b + 1) := by
  intro k
  induction k with
  | zero =>
    intro a b hab hmem
    have ha : a = 0 := by omega
    have hb : b = 0 := by omega
    subst ha; subst hb
    rw [cylrdtw.descend_origin,
      cydtw.bt_eq_diag s1 s2 0 0 (cydtw.pick_origin s1 s2), cydtw.bt_zero_left]
  | succ k ih =>
    intro a b hab hmem
    cases a with
    | zero =>
      cases b with
      | zero =>
        rw [cylrdtw.descend_origin,
          cydtw.bt_eq_diag s1 s2 0 0 (cydtw.pick_origin s1 s2), cydtw.bt_zero_left]
      | succ b' =>
        have hp0 : cydtw.pick (cydtw.D s1 s2 0 (b' + 1)) (cydtw.D s1 s2 0 (b' + 1 + 1))
            (cydtw.D s1 s2 (0 + 1) (b' + 1)) = .lft :=
          cydtw.pick_row1 s1 s2 (b' + 1) (by omega)
        have hbs : cydtw.btstep s1 s2 (0, b' + 1) = (0, b') := by
          rw [cydtw.btstep_mk, hp0]; rfl
        have hnx := cydtw.bt_mem_next s1 s2 _ _ hn hm (0, b' + 1) hmem (by simp)
        rw [hbs] at hnx
        rw [cylrdtw.descend_row, cydtw.bt_eq_lft s1 s2 0 (b' + 1) hp0]
        exact congrArg (List.cons _) (ih 0 b' (by omega) hnx.1)
    | succ a' =>
      cases b with
      | zero =>
        have hp0 : cydtw.pick (cydtw.D s1 s2 (a' + 1) 0) (cydtw.D s1 s2 (a' + 1) (0 + 1))
            (cydtw.D s1 s2 (a' + 1 + 1) 0) = .up :=
          cydtw.pick_col1 s1 s2 (a' + 1) (by omega)
        have hbs : cydtw.btstep s1 s2 (a' + 1, 0) = (a', 0) := by
          rw [cydtw.btstep_mk, hp0]; rfl
        have hnx := cydtw.bt_mem_next s1 s2 _ _ hn hm (a' + 1, 0) hmem (by simp)
        rw [hbs] at hnx
        rw [cylrdtw.descend_col, cydtw.bt_eq_up s1 s2 (a' + 1) 0 hp0]
        exact congrArg (List.cons _) (ih a' 0 (by omega) hnx.1)
      | succ b' =>
        obtain ⟨-, hbnd⟩ := cydtw.bt_chain2 s1 s2 (s1.length + s2.length)
          s1.length s2.length le_rfl hn hm
        obtain ⟨hA, hB⟩ := hbnd (a' + 1, b' + 1) hmem
        have ha2 : a' + 1 + 1 ≤ s1.length := hA
        have hb2 : b' + 1 + 1 ≤ s2.length := hB
        have hPd := hP a' b' (by omega) (by omega)
        have hPu := hP a' (b' + 1) (by omega) (by omega)
        have hPl := hP (a' + 1) b' (by omega) (by omega)
        rcases hp : cydtw.pick (cydtw.D s1 s2 (a' + 1) (b' + 1))
            (cydtw.D s1 s2 (a' + 1) (b' + 1 + 1))
            (cydtw.D s1 s2 (a' + 1 + 1) (b' + 1)) with _ | _ | _
        · -- diagonal pick: the chain continues at (a', b')
          have hbs : cydtw.btstep s1 s2 (a' + 1, b' + 1) = (a', b') := by
            rw [cydtw.btstep_mk, hp]; rfl
          have hnx := cydtw.bt_mem_next s1 s2 _ _ hn hm (a' + 1, b' + 1) hmem (by simp)
          rw [hbs] at hnx
          have hcond : P a' b' ≥ P a' (b' + 1) ∧ P a' b' ≥ P (a' + 1) b' := by
            rw [hPd, if_pos hnx.1, hPu, hPl]
            exact ⟨cylrdtw.ind_le_one _, cylrdtw.ind_le_one _⟩
          rw [cylrdtw.descend_interior, if_pos hcond,
            cydtw.bt_eq_diag s1 s2 (a' + 1) (b' + 1) hp]
          exact congrArg (List.cons _) (ih a' b' (by omega) hnx.1)
        · -- up pick: the chain continues at (a', b' + 1)
          have hbs : cydtw.btstep s1 s2 (a' + 1, b' + 1) = (a', b' + 1) := by
            rw [cydtw.btstep_mk, hp]; rfl
          have hnx := cydtw.bt_mem_next s1 s2 _ _ hn hm (a' + 1, b' + 1) hmem (by simp)
          rw [hbs] at hnx
          have hdnot : (a', b') ∉ cydtw.bt s1 s2 s1.length s2.length := by
            intro hd
            have h1 := cydtw.bt_next_position s1 s2 _ _ hn hm (a', b' + 1) (a', b')
              hnx.1 hd (by show a' + b' < a' + (b' + 1); omega)
            rcases hq : cydtw.pick (cydtw.D s1 s2 a' (b' + 1))
                (cydtw.D s1 s2 a' (b' + 1 + 1))
                (cydtw.D s1 s2 (a' + 1) (b' + 1)) with _ | _ | _
            · rcases Nat.eq_zero_or_pos a' with ha0 | ha0
              · subst ha0
                simp only [Nat.zero_add] at hq
                rw [cydtw.pick_row1 s1 s2 (b' + 1) (by omega)] at hq
                cases hq
              · have hbs2 : cydtw.btstep s1 s2 (a', b' + 1) = (a' - 1, b') := by
                  rw [cydtw.btstep_mk, hq]; rfl
                rw [hbs2] at h1
                rcases h1 with h1 | h1
                · have h1' : (a', b') = (a' - 1, b') := h1
                  simp only [Prod.mk.injEq] at h1'
                  omega
                · have h1' : a' + b' < a' - 1 + b' := h1
                  omega
            · rcases Nat.eq_zero_or_pos a' with ha0 | ha0
              · subst ha0
                simp only [Nat.zero_add] at hq
                rw [cydtw.pick_row1 s1 s2 (b' + 1) (by omega)] at hq
                cases hq
              · have hbs2 : cydtw.btstep s1 s2 (a', b' + 1) = (a' - 1, b' + 1) := by
                  rw [cydtw.btstep_mk, hq]
                rw [hbs2] at h1
                rcases h1 with h1 | h1
                · have h1' : (a', b') = (a' - 1, b' + 1) := h1
                  simp only [Prod.mk.injEq] at h1'
                  omega
                · have h1' : a' + b' < a' - 1 + (b' + 1) := h1
                  omega
            · have hge := cydtw.D_ge_lft s1 s2 a' (b' + 1) hq
              exact absurd hge (not_le.mpr (cydtw.pick_up_lt hp).1)
          have hc1 : ¬ (P a' b' ≥ P a' (b' + 1) ∧ P a' b' ≥ P (a' + 1) b') := by
            rintro ⟨hcon, -⟩
            rw [hPd, if_neg hdnot, hPu, if_pos hnx.1] at hcon
            norm_num at hcon
          have hc2 : P a' (b' + 1) ≥ P (a' + 1) b' := by
            rw [hPu, if_pos hnx.1, hPl]
            exact cylrdtw.ind_le_one _
          rw [cylrdtw.descend_interior, if_neg hc1, if_pos hc2,
            cydtw.bt_eq_up s1 s2 (a' + 1) (b' + 1) hp]
          exact congrArg (List.cons _) (ih a' (b' + 1) (by omega) hnx.1)
        · -- left pick: the chain continues at (a' + 1, b')
          have hbs : cydtw.btstep s1 s2 (a' + 1, b' + 1) = (a' + 1, b') := by
            rw [cydtw.btstep_mk, hp]; rfl
          have hnx := cydtw.bt_mem_next s1 s2 _ _ hn hm (a' + 1, b' + 1) hmem (by simp)
          rw [hbs] at hnx
          have hunot : (a', b' + 1) ∉ cydtw.bt s1 s2 s1.length s2.length := by
            intro hu
            have heq := cydtw.bt_level_unique s1 s2 _ _ hn hm (a', b' + 1) (a' + 1, b')
              hu hnx.1 (by show a' + (b' + 1) = a' + 1 + b'; omega)
            simp only [Prod.mk.injEq] at heq
            omega
          have hdnot : (a', b') ∉ cydtw.bt s1 s2 s1.length s2.length := by
            intro hd
            have h1 := cydtw.bt_next_position s1 s2 _ _ hn hm (a' + 1, b') (a', b')
              hnx.1 hd (by show a' + b' < a' + 1 + b'; omega)
            rcases hq : cydtw.pick (cydtw.D s1 s2 (a' + 1) b')
                (cydtw.D s1 s2 (a' + 1) (b' + 1))
                (cydtw.D s1 s2 (a' + 1 + 1) b') with _ | _ | _
            · rcases Nat.eq_zero_or_pos b' with hb0 | hb0
              · subst hb0
                simp only [Nat.zero_add] at hq
                rw [cydtw.pick_col1 s1 s2 (a' + 1) (by omega)] at hq
                cases hq
              · have hbs2 : cydtw.btstep s1 s2 (a' + 1, b') = (a', b' - 1) := by
                  rw [cydtw.btstep_mk, hq]; rfl
                rw [hbs2] at h1
                rcases h1 with h1 | h1
                · have h1' : (a', b') = (a', b' - 1) := h1
                  simp only [Prod.mk.injEq] at h1'
                  omega
                · have h1' : a' + b' < a' + (b' - 1) := h1
                  omega
            · have hge := cydtw.D_ge_up s1 s2 (a' + 1) b' hq
              exact absurd hge (not_le.mpr (cydtw.pick_lft_lt hp).2)
            · rcases Nat.eq_zero_or_pos b' with hb0 | hb0
              · subst hb0
                simp only [Nat.zero_add] at hq
                rw [cydtw.pick_col1 s1 s2 (a' + 1) (by omega)] at hq
                cases hq
              · have hbs2 : cydtw.btstep s1 s2 (a' + 1, b') = (a' + 1, b' - 1) := by
                  rw [cydtw.btstep_mk, hq]
                rw [hbs2] at h1
                rcases h1 with h1 | h1
                · have h1' : (a', b') = (a' + 1, b' - 1) := h1
                  simp only [Prod.mk.injEq] at h1'
                  omega
                · have h1' : a' + b' < a' + 1 + (b' - 1) := h1
                  omega
          have hc1 : ¬ (P a' b' ≥ P a' (b' + 1) ∧ P a' b' ≥ P (a' + 1) b') := by
            rintro ⟨-, hcon⟩
            rw [hPd, if_neg hdnot, hPl, if_pos hnx.1] at hcon
            norm_num at hcon
          have hc2 : ¬ (P a' (b' + 1) ≥ P (a' + 1) b') := by
            intro hcon
            rw [hPu, if_neg hunot, hPl, if_pos hnx.1] at hcon
            norm_num at hcon
          rw [cylrdtw.descend_interior, if_neg hc1, if_neg hc2,
            cydtw.bt_eq_lft s1 s2 (a' + 1) (b' + 1) hp]
          exact congrArg (List.cons _) (ih (a' + 1) b' (by omega) hnx.1)

/-- At temperature 0 the greedy descent on the mass map reproduces the full
DTW backtrace. -/
theorem descend_eq_bt (s1 s2 : TS) (hn : 1 ≤ s1.length) (hm : 1 ≤ s2.length) :
    cylrdtw.descend
        (fun a b => cylrdtw.mass 0 s1 s2 s1.length s2.length (a + 1) (b + 1))
        (s1.length - 1) (s2.length - 1)
      = cydtw.bt s1 s2 s1.length s2.length := by
  have hP : ∀ x y, x + 1 ≤ s1.length → y + 1 ≤ s2.length →
      (fun a b => cylrdtw.mass 0 s1 s2 s1.length s2.length (a + 1) (b + 1)) x y
        = if (x, y) ∈ cydtw.bt s1 s2 s1.length s2.length then 1 else 0 := by
    intro x y hx hy
    have h := mass_zero_indicator s1 s2 hn hm (s1.length + s2.length) (x + 1) (y + 1)
      (by omega) (by omega) hx (by omega) hy
    simpa using h
  have hhead := cydtw.bt_head_mem s1 s2 s1.length s2.length hn hm
  have h := descend_eq_bt_aux s1 s2 hn hm _ hP (s1.length + s2.length)
    (s1.length - 1) (s2.length - 1) (by omega) hhead
  have e1 : s1.length - 1 + 1 = s1.length := by omega
  have e2 : s2.length - 1 + 1 = s2.length := by omega
  rw [e1, e2] at h
  exact h

/-- C8: at gamma = 0 LR-DTW degenerates to hard DTW: the soft-min is the hard
minimum of its three arguments, the per-cell predecessor weights are the
one-hot vector of the hard-DTW pick, the `lr_dtw` score equals the `dtw`
score, and the backtraced LR-DTW path equals the hard-DTW backtrace path. -/
theorem lr_dtw_gamma_zero_matches_dtw (s1 s2 : TS) (h1 : s1 ≠ []) (h2 : s2 ≠ []) :
    (∀ x y z : WithTop ℝ, cylrdtw.softmin3 0 x y z = min (min x y) z) ∧
    (∀ a b : ℕ, cylrdtw.wcell 0 s1 s2 (a + 1) (b + 1) =
      (match cydtw.pick (cydtw.D s1 s2 a b) (cydtw.D s1 s2 a (b + 1))
          (cydtw.D s1 s2 (a + 1) b) with
       | .diag => ((1 : ℝ), (0 : ℝ), (0 : ℝ))
       | .up => (0, 1, 0)
       | .lft => (0, 0, 1))) ∧
    metrics.lr_dtw s1 s2 0 = metrics.dtw s1 s2 ∧
    (metrics.lr_dtw_path s1 s2 0).1 = (metrics.dtw_path s1 s2).1 := by
  have hn : 1 ≤ s1.length := List.length_pos.mpr h1
  have hm : 1 ≤ s2.length := List.length_pos.mpr h2
  refine ⟨cylrdtw.softmin3_zero, cylrdtw.wcell_zero s1 s2,
    lr_dtw_zero_score_eq s1 s2, ?_⟩
  show (cylrdtw.descend
      (fun a b => cylrdtw.mass 0 s1 s2 s1.length s2.length (a + 1) (b + 1))
      (s1.length - 1) (s2.length - 1)).reverse
    = (cydtw.bt s1 s2 s1.length s2.length).reverse
  rw [descend_eq_bt s1 s2 hn hm]

/-- Witness for C8 at a concrete pair of one-point series. -/
theorem lr_dtw_gamma_zero_matches_dtw_witness :
    metrics.lr_dtw [[(0 : ℚ)]] [[(1 : ℚ)]] 0 = metrics.dtw [[(0 : ℚ)]] [[(1 : ℚ)]] ∧
    (metrics.lr_dtw_path [[(0 : ℚ)]] [[(1 : ℚ)]] 0).1
      = (metrics.dtw_path [[(0 : ℚ)]] [[(1 : ℚ)]]).1 :=
  ⟨(lr_dtw_gamma_zero_matches_dtw [[(0 : ℚ)]] [[(1 : ℚ)]]
      (List.cons_ne_nil _ _) (List.cons_ne_nil _ _)).2.2.1,
   (lr_dtw_gamma_zero_matches_dtw [[(0 : ℚ)]] [[(1 : ℚ)]]
      (List.cons_ne_nil _ _) (List.cons_ne_nil _ _)).2.2.2⟩
